import Mathlib

/-!
Verification of the Sudoku engine (validator, solver, solution counter,
generator) of this repository, shallowly embedded in Lean.

Boards are lists of lists of integers, as in the Python source
(`list[list[int]]`); the empty-cell sentinel is a caller-supplied integer.
In-place mutation of the board is embedded as explicit state passing: every
function that mutates the board also returns the board it left behind.
Python list indexing `board[y][x]` at the in-range indices used by the
engine is embedded with `List.getD`; the one function whose contract is
about out-of-range indices (`is_valid_entry`, reached through arbitrary
caller input) additionally gets a faithful embedding `is_valid_entry_py`
of Python indexing, including negative-index wrap-around and `IndexError`.
Unbounded recursion (the backtracking search and the generator's removal
loop) is embedded with an explicit fuel parameter; the chosen fuel of 100
exceeds the recursion depth reachable on any 9x9 board (at most 82: one
level per empty cell plus the final full-board check), and the removal
loop of `generate(unique=false)` — which genuinely may not terminate on an
adversarial random stream — surfaces its fuel so that nontermination is
`none`.  Random values (`random.randint(0, 8)` pairs) are an explicit
stream `Nat → Fin 9 × Fin 9` indexed by how many draws were made before;
`random.sample` results are explicit parameters.
-/

set_option maxRecDepth 1000000

namespace Sudoku

/-- A cell value: a digit or the caller-chosen sentinel. -/
abbrev Cell := Int

/-- `list[list[int]]` of the source. -/
abbrev Board := List (List Cell)

/-- The exceptions the source can raise: `IndexError` from list indexing,
`ValueError` from explicit `raise ValueError(...)` statements. -/
inductive PyError where
  | indexError : PyError
  | valueError : PyError
deriving DecidableEq

/-- `board[r][c]` for the in-range accesses of the engine. -/
def getCell (b : Board) (r c : Nat) : Cell := (b.getD r []).getD c 0

/-- `board[r][c] = v` (in-place update, embedded functionally). -/
def setCell (b : Board) (r c : Nat) (v : Cell) : Board :=
  b.set r ((b.getD r []).set c v)

/-- The test-suite observer `sum(row.count(empty_indicator) for row in board)`:
how many cells of the board hold the sentinel. -/
def emptyCount (b : Board) (e : Cell) : Nat :=
  (b.map (fun row => row.countP (fun x => x == e))).sum

/-- The board is a 9x9 matrix (the shape `is_valid_board` checks). -/
def Board9 (b : Board) : Prop :=
  b.length = 9 ∧ ∀ r, r < 9 → (b.getD r []).length = 9

instance (b : Board) : Decidable (Board9 b) := by
  unfold Board9
  infer_instance

/-! ## Validator (`sudoku_validator.py`) -/

/-- `get_values_in_square`: the 9 values of the 3x3 box containing
`(row_index, col_index)`, as `square += board[y + i][x: x + 3]` for
`i = 0, 1, 2` with `y = row_index // 3 * 3`, `x = col_index // 3 * 3`. -/
def get_values_in_square (b : Board) (row_index col_index : Nat) : List Cell :=
  let y := row_index / 3 * 3
  let x := col_index / 3 * 3
  (((b.getD y []).drop x).take 3) ++ (((b.getD (y+1) []).drop x).take 3)
    ++ (((b.getD (y+2) []).drop x).take 3)

/-- `is_valid_entry`: `value` occurs in neither the column, the row, nor the
box of `(row_index, col_index)`.  `column = [row[col_index] for row in board]`,
`row = board[row_index]`, and the test is `value in column + row + square`. -/
def is_valid_entry (b : Board) (row_index col_index : Nat) (value : Cell) : Bool :=
  let column := b.map (fun row => row.getD col_index 0)
  let row := b.getD row_index []
  let square := get_values_in_square b row_index col_index
  !((column ++ row ++ square).contains value)

/-- The iteration order of `is_valid_board`:
`for row in range(9): for col in range(9)`. -/
def allCells : List (Nat × Nat) :=
  (List.range 9).flatMap (fun r => (List.range 9).map (fun c => (r, c)))

/-- The cell-scanning loop of `is_valid_board`.  For each non-sentinel cell,
the source sets the cell to the sentinel, tests `is_valid_entry` for the
original value there, and on success writes the original value back; on
failure it returns `False` at once — with the cell still holding the
sentinel.  The returned board is the board as the loop left it. -/
def validLoop (b : Board) (e : Cell) : List (Nat × Nat) → Bool × Board
  | [] => (true, b)
  | (r, c) :: rest =>
    let v := getCell b r c
    if v == e then validLoop b e rest
    else
      let b1 := setCell b r c e
      if is_valid_entry b1 r c v then validLoop (setCell b1 r c v) e rest
      else (false, b1)

/-- `is_valid_board`: raises `ValueError` unless the board is 9x9, then scans
all 81 cells.  Returns the verdict together with the board it left behind. -/
def is_valid_board (b : Board) (e : Cell) : Except PyError (Bool × Board) :=
  if b.length ≠ 9 ∨ b.any (fun row => row.length ≠ 9) then .error .valueError
  else .ok (validLoop b e allCells)

/-! ## Python list indexing, embedded exactly (for `is_valid_entry`'s
out-of-range contract) -/

/-- Valid Python list index for a list of length `len`: `0 ≤ i < len` used
directly, `-len ≤ i < 0` wrapped to `len + i`, anything else `IndexError`. -/
def pyIndex (len : Nat) (i : Int) : Option Nat :=
  if 0 ≤ i then (if i < len then some i.toNat else none)
  else (if -i ≤ (len : Int) then some (len - (-i).toNat) else none)

/-- `board[i]` with Python semantics. -/
def pyGetRow (b : Board) (i : Int) : Except PyError (List Cell) :=
  match pyIndex b.length i with
  | some k => .ok (b.getD k [])
  | none => .error .indexError

/-- `row[i]` with Python semantics. -/
def pyGetCell (l : List Cell) (i : Int) : Except PyError Cell :=
  match pyIndex l.length i with
  | some k => .ok (l.getD k 0)
  | none => .error .indexError

/-- One bound of a Python slice `l[a:b]`: negative values count from the end,
then the bound is clamped into `[0, len]`.  Slicing never raises. -/
def pyBound (len : Nat) (i : Int) : Nat :=
  if i < 0 then (i + len).toNat else min i.toNat len

/-- Python slice `l[a:b]`. -/
def pySlice (l : List Cell) (a b : Int) : List Cell :=
  let s := pyBound l.length a
  let t := pyBound l.length b
  (l.drop s).take (t - s)

/-- `get_values_in_square` under Python indexing, with `//` as floor
division (`Int.fdiv`). -/
def get_values_in_square_py (b : Board) (r c : Int) :
    Except PyError (List Cell) := do
  let y := (Int.fdiv r 3) * 3
  let x := (Int.fdiv c 3) * 3
  let r0 ← pyGetRow b y
  let r1 ← pyGetRow b (y + 1)
  let r2 ← pyGetRow b (y + 2)
  return pySlice r0 x (x + 3) ++ pySlice r1 x (x + 3) ++ pySlice r2 x (x + 3)

/-- `is_valid_entry` under Python indexing, in the source's evaluation
order: first the column comprehension, then `board[row_index]`, then the
box values, then the membership test. -/
def is_valid_entry_py (b : Board) (row_index col_index : Int) (value : Cell) :
    Except PyError Bool := do
  let column ← b.mapM (fun row => pyGetCell row col_index)
  let row ← pyGetRow b row_index
  let square ← get_values_in_square_py b row_index col_index
  return !((column ++ row ++ square).contains value)

/-! ## Solver (`sudoku_solver.py`) -/

/-- `get_empty`: first cell (row-major over `range(9) x range(9)`) holding
the sentinel, or `none`. -/
def get_empty (b : Board) (e : Cell) : Option (Nat × Nat) :=
  (List.range 9).findSome? (fun y =>
    ((List.range 9).find? (fun x => getCell b y x == e)).map (fun x => (y, x)))

/-- `range(1, 10)`: the candidate digits, in ascending order. -/
def digits : List Cell := [1, 2, 3, 4, 5, 6, 7, 8, 9]

/-- One candidate trial of `fill_board`'s `for value in range(1, 10)` loop.
State `(done, board)`: once a recursive call has succeeded the loop body no
longer runs (the source returns immediately), which the fold renders by
passing the state through.  On a failed recursive call the source writes
the sentinel back and tries the next value. -/
def fill_step (next : Board → Bool × Board) (e : Cell) (r c : Nat)
    (st : Bool × Board) (v : Cell) : Bool × Board :=
  if st.1 then st
  else if is_valid_entry st.2 r c v then
    let res := next (setCell st.2 r c v)
    if res.1 then (true, res.2)
    else (false, setCell res.2 r c e)
  else st

/-- `fill_board`, with fuel.  No empty cell: success.  Otherwise try the
nine candidates at the first empty cell.  Fuel 0 (unreachable from a 9x9
board with the wrapper's fuel) gives up with the board unchanged. -/
def fill_go : Nat → Board → Cell → Bool × Board
  | 0, b, _ => (false, b)
  | fuel+1, b, e =>
    match get_empty b e with
    | none => (true, b)
    | some (r, c) =>
      digits.foldl (fill_step (fun b2 => fill_go fuel b2 e) e r c) (false, b)

/-- `fill_board(board, empty_indicator)`: recursion depth on a 9x9 board is
at most 82, so fuel 100 is never exhausted there. -/
def fill_board (b : Board) (e : Cell) : Bool × Board := fill_go 100 b e

/-! ## Solution counter (`sudoku_generator.py`, `count_solutions`) -/

/-- One candidate trial of `count_solutions`'s loop.  State
`(broke, count, board)`: the source breaks out of the loop once
`count >= limit`, rendered by passing the state through; each tried value
is written, counted recursively, and the sentinel restored before the
limit test. -/
def count_step (next : Board → Int × Board) (limit : Int) (e : Cell)
    (r c : Nat) (st : Bool × Int × Board) (v : Cell) : Bool × Int × Board :=
  if st.1 then st
  else if is_valid_entry st.2.2 r c v then
    let kb := next (setCell st.2.2 r c v)
    let count2 := st.2.1 + kb.1
    let b2 := setCell kb.2 r c e
    (decide (limit ≤ count2), count2, b2)
  else st

/-- `count_solutions`, with fuel.  A board with no empty cell counts as one
solution immediately — its legality is never examined. -/
def count_go : Nat → Board → Int → Cell → Int × Board
  | 0, b, _, _ => (0, b)
  | fuel+1, b, limit, e =>
    match get_empty b e with
    | none => (1, b)
    | some (r, c) =>
      let st := digits.foldl
        (count_step (fun b2 => count_go fuel b2 limit e) limit e r c)
        (false, 0, b)
      (st.2.1, st.2.2)

/-- `count_solutions(board, limit, empty_indicator)`: the count found and
the board as the function left it.  Fuel as for `fill_board`. -/
def count_solutions (b : Board) (limit : Int) (e : Cell) : Int × Board :=
  count_go 100 b limit e

/-! ## Generator (`sudoku_generator.py`) -/

/-- The `while empties < total_empties and attempts < max_attempts` loop of
`_create_unique_board`.  `gas` is the remaining attempt budget
(`max_attempts - attempts`), so the loop is structural in `gas`; `attempts`
counts the `random.randint` draws made so far and indexes the stream.  A
drawn cell already holding the sentinel only costs an attempt; otherwise
the cell is cleared, kept if the cleared board still has exactly one
solution (checked on a copy), and restored otherwise. -/
def carve_go (rng : Nat → Fin 9 × Fin 9) (total : Nat) (e : Cell) :
    Nat → Board → Nat → Nat → Board
  | 0, b, _, _ => b
  | gas+1, b, empties, attempts =>
    if empties < total then
      let rc := rng attempts
      let r := (rc.1 : Nat)
      let c := (rc.2 : Nat)
      if getCell b r c == e then carve_go rng total e gas b empties (attempts+1)
      else
        let backup := getCell b r c
        let b1 := setCell b r c e
        let sols := (count_solutions b1 2 e).1
        if sols == 1 then carve_go rng total e gas b1 (empties+1) (attempts+1)
        else carve_go rng total e gas (setCell b1 r c backup) empties (attempts+1)
    else b

/-- `_create_unique_board(board, total_empties, empty_indicator)` with
`max_attempts = 81 * 3 = 243`. -/
def _create_unique_board (b : Board) (total : Nat) (e : Cell)
    (rng : Nat → Fin 9 × Fin 9) : Board :=
  carve_go rng total e 243 b 0 0

/-- The `while total_empties > 0` removal loop of `generate(unique=false)`.
This loop has no attempt budget in the source and diverges on a random
stream that only ever names already-empty cells, so it takes fuel and
returns `none` when the fuel is exhausted before `remaining` reaches 0. -/
def remove_go (rng : Nat → Fin 9 × Fin 9) (e : Cell) :
    Nat → Board → Nat → Nat → Option Board
  | fuel, b, remaining, i =>
    if remaining = 0 then some b
    else
      match fuel with
      | 0 => none
      | fuel+1 =>
        let rc := rng i
        let r := (rc.1 : Nat)
        let c := (rc.2 : Nat)
        if getCell b r c == e then remove_go rng e fuel b remaining (i+1)
        else remove_go rng e fuel (setCell b r c e) (remaining - 1) (i+1)

/-- `[[empty_indicator] * 9] * 9`: the all-sentinel start board. -/
def emptyBoard (e : Cell) : Board := List.replicate 9 (List.replicate 9 e)

/-- The seeding step of `generate`: `random.sample` picks 3 distinct columns
`c1, c2, c3` of row 0 and 3 distinct values `v1, v2, v3` from 1..9 (the
distinctness is a property of `random.sample`, stated as hypotheses where
needed), and `board[0][col] = value` for each pair. -/
def seedBoard (e : Cell) (c1 c2 c3 : Fin 9) (v1 v2 v3 : Cell) : Board :=
  setCell (setCell (setCell (emptyBoard e) 0 c1 v1) 0 c2 v2) 0 c3 v3

/-- `generate(total_empties, unique, empty_indicator)`.  Raises `ValueError`
unless `0 < total_empties <= 81`; seeds row 0; solves in place (the return
value of `fill_board` is discarded by the source); copies the solved board;
then carves by the chosen policy.  `none` only when `unique = false` and
the removal loop exceeded `fuel` draws. -/
def generate (total : Nat) (unique : Bool) (e : Cell) (c1 c2 c3 : Fin 9)
    (v1 v2 v3 : Cell) (rng : Nat → Fin 9 × Fin 9) (fuel : Nat) :
    Except PyError (Option (Board × Board)) :=
  if ¬(0 < total ∧ total ≤ 81) then .error .valueError
  else
    let seeded := seedBoard e c1 c2 c3 v1 v2 v3
    let board := (fill_board seeded e).2
    let solved_board := board
    if unique then .ok (some (_create_unique_board board total e rng, solved_board))
    else
      match remove_go rng e fuel board total 0 with
      | some puzzle => .ok (some (puzzle, solved_board))
      | none => .ok none

/-! ## Specification-level predicates (observers over the embedding) -/

/-- The check `is_valid_board` performs at one cell: the cell is empty, or
its value is still a valid entry after the cell is temporarily emptied. -/
def CellOK (b : Board) (e : Cell) (r c : Nat) : Prop :=
  getCell b r c = e ∨ is_valid_entry (setCell b r c e) r c (getCell b r c) = true

/-- Every one of the 81 cells passes `is_valid_board`'s check: no duplicated
non-sentinel value in any row, column or box. -/
def ValidB (b : Board) (e : Cell) : Prop :=
  ∀ r, r < 9 → ∀ c, c < 9 → CellOK b e r c

/-- Every non-sentinel cell of `b` agrees with `t` (the pairing invariant
between a puzzle and its solution, and the notion of a partial board being
extended by a full one). -/
def agreesOn (b t : Board) (e : Cell) : Prop :=
  ∀ r, r < 9 → ∀ c, c < 9 → getCell b r c ≠ e → getCell b r c = getCell t r c

/-- The sentinel is not one of the digits 1..9 (required of callers by the
spec's data model). -/
def NotDigit (e : Cell) : Prop := ¬(e ∈ digits)

/-- Every cell of the grid holds a digit 1..9. -/
def FullDigits (t : Board) : Prop :=
  ∀ r, r < 9 → ∀ c, c < 9 → getCell t r c ∈ digits

/-- No row, column or box of the grid repeats a value (stated pointwise;
the box clause ranges over box index `bi` and in-box positions `p`, `q`). -/
def Distinct9 (t : Board) : Prop :=
  (∀ r, r < 9 → ∀ c, c < 9 → ∀ c', c' < 9 → c ≠ c' →
    getCell t r c ≠ getCell t r c') ∧
  (∀ c, c < 9 → ∀ r, r < 9 → ∀ r', r' < 9 → r ≠ r' →
    getCell t r c ≠ getCell t r' c) ∧
  (∀ bi, bi < 9 → ∀ p, p < 9 → ∀ q, q < 9 → p ≠ q →
    getCell t (bi / 3 * 3 + p / 3) (bi % 3 * 3 + p % 3)
      ≠ getCell t (bi / 3 * 3 + q / 3) (bi % 3 * 3 + q % 3))

/-- A complete legal solution grid: 9x9, all digits, no repeats. -/
def GoodGrid (t : Board) : Prop := Board9 t ∧ FullDigits t ∧ Distinct9 t

/-- Apply a value map to every cell of a board. -/
def mapGrid (f : Cell → Cell) (b : Board) : Board := b.map (List.map f)

/-! ## Concrete boards for counterexamples and witnesses -/

/-- A full, valid solution grid (the output of
`fill_board(seedBoard 0 [cols 0,1,2] [vals 1,2,3], 0)`). -/
def stdGrid : Board :=
  [[1, 2, 3, 4, 5, 6, 7, 8, 9], [4, 5, 6, 7, 8, 9, 1, 2, 3],
   [7, 8, 9, 1, 2, 3, 4, 5, 6], [2, 1, 4, 3, 6, 5, 8, 9, 7],
   [3, 6, 5, 8, 9, 7, 2, 1, 4], [8, 9, 7, 2, 1, 4, 3, 6, 5],
   [5, 3, 1, 6, 4, 2, 9, 7, 8], [6, 4, 2, 9, 7, 8, 5, 3, 1],
   [9, 7, 8, 5, 3, 1, 6, 4, 2]]

/-- `stdGrid` with the seven cells (0,0), (0,1), (3,0), (3,1), (3,2),
(7,1), (7,2) cleared.  On this board the first empty cell (0,0) admits the
digits 1 and 2; the branch placing 1 completes in exactly one way, the
branch placing 2 in exactly two, so `count_solutions` with `limit = 2`
accumulates 1 + 2 = 3. -/
def overCountBoard : Board :=
  [[0, 0, 3, 4, 5, 6, 7, 8, 9], [4, 5, 6, 7, 8, 9, 1, 2, 3],
   [7, 8, 9, 1, 2, 3, 4, 5, 6], [0, 0, 0, 3, 6, 5, 8, 9, 7],
   [3, 6, 5, 8, 9, 7, 2, 1, 4], [8, 9, 7, 2, 1, 4, 3, 6, 5],
   [5, 3, 1, 6, 4, 2, 9, 7, 8], [6, 0, 0, 9, 7, 8, 5, 3, 1],
   [9, 7, 8, 5, 3, 1, 6, 4, 2]]

/-- A full 9x9 board every cell of which is 1: row 0 holds two identical
non-sentinel values, yet there is no empty cell. -/
def allOnes : Board := List.replicate 9 (List.replicate 9 (1 : Int))

/-- A board whose single empty cell (0,0) admits no digit: 2..9 occur in
row 0 and 1 occurs in column 0. -/
def noFitBoard : Board :=
  [[0, 2, 3, 4, 5, 6, 7, 8, 9], [1, 1, 1, 1, 1, 1, 1, 1, 1],
   [1, 1, 1, 1, 1, 1, 1, 1, 1], [1, 1, 1, 1, 1, 1, 1, 1, 1],
   [1, 1, 1, 1, 1, 1, 1, 1, 1], [1, 1, 1, 1, 1, 1, 1, 1, 1],
   [1, 1, 1, 1, 1, 1, 1, 1, 1], [1, 1, 1, 1, 1, 1, 1, 1, 1],
   [1, 1, 1, 1, 1, 1, 1, 1, 1]]

/-- `stdGrid` with cell (0,1) overwritten by 1: a duplicated 1 in row 0. -/
def dupBoard : Board :=
  [[1, 1, 3, 4, 5, 6, 7, 8, 9], [4, 5, 6, 7, 8, 9, 1, 2, 3],
   [7, 8, 9, 1, 2, 3, 4, 5, 6], [2, 1, 4, 3, 6, 5, 8, 9, 7],
   [3, 6, 5, 8, 9, 7, 2, 1, 4], [8, 9, 7, 2, 1, 4, 3, 6, 5],
   [5, 3, 1, 6, 4, 2, 9, 7, 8], [6, 4, 2, 9, 7, 8, 5, 3, 1],
   [9, 7, 8, 5, 3, 1, 6, 4, 2]]

/-- A random stream that enumerates the 81 cells in row-major order. -/
def enumRng (i : Nat) : Fin 9 × Fin 9 :=
  (⟨i / 9 % 9, Nat.mod_lt _ (by omega)⟩, ⟨i % 9, Nat.mod_lt _ (by omega)⟩)

/-- A random stream that always draws cell (0, 0), as in the repository's
`test_create_unique_board_max_attempts` mock. -/
def constRng (_ : Nat) : Fin 9 × Fin 9 := (0, 0)

/-! # Lemmas -/

/-! ## Basic cell access -/

theorem length_setCell (b : Board) (r c : Nat) (v : Cell) :
    (setCell b r c v).length = b.length := List.length_set b r _

theorem getD_set_self {α : Type} {l : List α} {i : Nat} (x : α) (d : α)
    (h : i < l.length) : (l.set i x).getD i d = x := by
  rw [List.getD_eq_getElem?_getD, List.getElem?_set_self (by simpa using h)]
  rfl

theorem getD_set_ne {α : Type} {l : List α} {i j : Nat} (x : α) (d : α)
    (h : i ≠ j) : (l.set i x).getD j d = l.getD j d := by
  rw [List.getD_eq_getElem?_getD, List.getElem?_set_ne h,
    ← List.getD_eq_getElem?_getD]

theorem getDrow_setCell_self {b : Board} {r : Nat} (h : r < b.length)
    (c : Nat) (v : Cell) :
    (setCell b r c v).getD r [] = (b.getD r []).set c v := by
  unfold setCell
  rw [getD_set_self _ _ h]

theorem getDrow_setCell_ne {b : Board} {r r' : Nat} (h : r ≠ r')
    (c : Nat) (v : Cell) :
    (setCell b r c v).getD r' [] = b.getD r' [] := by
  unfold setCell
  rw [getD_set_ne _ _ h]

theorem setCell_oob {b : Board} {r : Nat} (h : b.length ≤ r) (c : Nat)
    (v : Cell) : setCell b r c v = b := List.set_eq_of_length_le h

theorem getD_oob {b : Board} {r : Nat} (h : b.length ≤ r) :
    b.getD r [] = [] := by
  rw [List.getD_eq_getElem?_getD, List.getElem?_eq_none h]
  rfl

theorem getCell_setCell_self {b : Board} {r c : Nat} (v : Cell)
    (hr : r < b.length) (hc : c < (b.getD r []).length) :
    getCell (setCell b r c v) r c = v := by
  unfold getCell
  rw [getDrow_setCell_self hr, List.getD_eq_getElem?_getD,
    List.getElem?_set_self (by simpa using hc)]
  rfl

theorem getCell_setCell_ne {b : Board} {r c r' c' : Nat} (v : Cell)
    (h : ¬(r = r' ∧ c = c')) :
    getCell (setCell b r c v) r' c' = getCell b r' c' := by
  unfold getCell
  by_cases hr : r = r'
  · subst hr
    have hc : c ≠ c' := fun hcc => h ⟨rfl, hcc⟩
    by_cases hlen : r < b.length
    · rw [getDrow_setCell_self hlen, List.getD_eq_getElem?_getD,
        List.getElem?_set_ne hc, ← List.getD_eq_getElem?_getD]
    · rw [setCell_oob (Nat.le_of_not_lt hlen)]
  · rw [getDrow_setCell_ne hr]

theorem set_getD_self {α : Type} (l : List α) (n : Nat) (d : α)
    (hn : n < l.length) : l.set n (l.getD n d) = l := by
  apply List.ext_getElem?
  intro i
  rw [List.getElem?_set]
  by_cases hi : n = i
  · subst hi
    simp [hn, List.getD_eq_getElem l d hn, List.getElem?_eq_getElem hn]
  · rw [if_neg hi]

theorem setCell_getCell_self (b : Board) (r c : Nat) :
    setCell b r c (getCell b r c) = b := by
  by_cases hr : r < b.length
  · unfold setCell getCell
    by_cases hc : c < (b.getD r []).length
    · rw [set_getD_self _ _ _ hc, set_getD_self _ _ _ hr]
    · rw [List.set_eq_of_length_le (Nat.le_of_not_lt hc),
        set_getD_self _ _ _ hr]
  · exact setCell_oob (Nat.le_of_not_lt hr) _ _

theorem setCell_setCell (b : Board) (r c : Nat) (v w : Cell) :
    setCell (setCell b r c v) r c w = setCell b r c w := by
  by_cases hr : r < b.length
  · unfold setCell
    rw [getD_set_self _ _ hr, List.set_set, List.set_set]
  · have h := Nat.le_of_not_lt hr
    simp only [setCell_oob h]

theorem setCell_restore {b : Board} {r c : Nat} {e : Cell} (v : Cell)
    (h : getCell b r c = e) : setCell (setCell b r c v) r c e = b := by
  rw [setCell_setCell, ← h, setCell_getCell_self]

theorem setCell_comm {b : Board} {r c r' c' : Nat} (v w : Cell)
    (h : ¬(r = r' ∧ c = c')) :
    setCell (setCell b r c v) r' c' w = setCell (setCell b r' c' w) r c v := by
  by_cases hr : r = r'
  · subst hr
    have hc : c ≠ c' := fun hcc => h ⟨rfl, hcc⟩
    by_cases hlen : r < b.length
    · unfold setCell
      rw [getD_set_self _ _ hlen, getD_set_self _ _ hlen,
        List.set_set, List.set_set, List.set_comm _ _ _ hc]
    · have hle := Nat.le_of_not_lt hlen
      simp only [setCell_oob hle]
  · unfold setCell
    rw [getD_set_ne _ _ hr, getD_set_ne _ _ (fun hh => hr hh.symm),
      List.set_comm _ _ _ hr]

theorem Board9_setCell {b : Board} (hb : Board9 b) (r c : Nat) (v : Cell) :
    Board9 (setCell b r c v) := by
  obtain ⟨hlen, hrow⟩ := hb
  refine ⟨by rw [length_setCell, hlen], ?_⟩
  intro i hi
  by_cases hir : r = i
  · subst hir
    by_cases hlt : r < b.length
    · rw [getDrow_setCell_self hlt, List.length_set]
      exact hrow r hi
    · rw [setCell_oob (Nat.le_of_not_lt hlt)]
      exact hrow r hi
  · rw [getDrow_setCell_ne hir]
    exact hrow i hi

/-! ## `get_empty` -/

theorem get_empty_eq_none_iff {b : Board} {e : Cell} :
    get_empty b e = none ↔ ∀ r, r < 9 → ∀ c, c < 9 → getCell b r c ≠ e := by
  unfold get_empty
  rw [List.findSome?_eq_none_iff]
  constructor
  · intro h r hr c hc hcell
    have := h r (List.mem_range.2 hr)
    rw [Option.map_eq_none', List.find?_eq_none] at this
    exact this c (List.mem_range.2 hc) (by simpa using hcell)
  · intro h y hy
    rw [Option.map_eq_none', List.find?_eq_none]
    intro x hx hbeq
    exact h y (List.mem_range.1 hy) x (List.mem_range.1 hx) (by simpa using hbeq)

theorem get_empty_eq_some {b : Board} {e : Cell} {r c : Nat}
    (h : get_empty b e = some (r, c)) :
    r < 9 ∧ c < 9 ∧ getCell b r c = e := by
  unfold get_empty at h
  obtain ⟨y, hy, hmap⟩ := List.exists_of_findSome?_eq_some h
  cases hfind : (List.range 9).find? (fun x => getCell b y x == e) with
  | none => rw [hfind] at hmap; simp at hmap
  | some x =>
    rw [hfind] at hmap
    have hx := List.mem_range.1 (List.mem_of_find?_eq_some hfind)
    have hbeq := List.find?_some hfind
    simp only [Option.map_some'] at hmap
    obtain ⟨rfl, rfl⟩ : y = r ∧ x = c := by
      constructor <;> [exact congrArg Prod.fst (Option.some.inj hmap);
        exact congrArg Prod.snd (Option.some.inj hmap)]
    exact ⟨List.mem_range.1 hy, hx, by simpa using hbeq⟩

/-! ## `emptyCount` -/

theorem natSum_set {L : List Nat} {n : Nat} (a : Nat) (h : n < L.length) :
    (L.set n a).sum + L[n] = L.sum + a := by
  rw [List.sum_set, if_pos h]
  have hL : L.sum = (L.take n).sum + (L[n] + (L.drop (n+1)).sum) := by
    conv_lhs => rw [← List.take_append_drop n L]
    rw [List.sum_append, List.drop_eq_getElem_cons h, List.sum_cons]
  omega

theorem countP_set_indicator {l : List Cell} {c : Nat} (v : Cell)
    (p : Cell → Bool) (h : c < l.length) :
    (l.set c v).countP p + (if p l[c] then 1 else 0)
      = l.countP p + (if p v then 1 else 0) := by
  rw [List.countP_set _ _ _ _ h]
  have hind : (if p l[c] = true then 1 else 0) ≤ l.countP p := by
    split
    · have : 0 < l.countP p :=
        List.countP_pos_iff.2 ⟨l[c], List.getElem_mem h, by assumption⟩
      omega
    · omega
  omega

theorem rows_length {b : Board} (hb : Board9 b) : ∀ row ∈ b, row.length = 9 := by
  intro row hrow
  obtain ⟨i, hi, hbi⟩ := List.mem_iff_getElem.1 hrow
  have : b.getD i [] = row := by
    rw [List.getD_eq_getElem _ _ hi]; exact hbi
  rw [← this]
  exact hb.2 i (by rw [← hb.1]; exact hi)

theorem getD_mem {b : Board} {r : Nat} (h : r < b.length) :
    b.getD r [] ∈ b := by
  rw [List.getD_eq_getElem _ _ h]
  exact List.getElem_mem h

theorem emptyCount_setCell {b : Board} {e : Cell} {r c : Nat}
    (hb : Board9 b) (hr : r < 9) (hc : c < 9) (v : Cell) :
    emptyCount (setCell b r c v) e + (if getCell b r c == e then 1 else 0)
      = emptyCount b e + (if v == e then 1 else 0) := by
  have hrlen : r < b.length := by rw [hb.1]; exact hr
  have hclen : c < (b.getD r []).length := by rw [hb.2 r hr]; exact hc
  have hmap : r < (List.map (fun row => row.countP (fun x => x == e)) b).length := by
    rw [List.length_map]; exact hrlen
  have key1 := @natSum_set (List.map (fun row => row.countP (fun x => x == e)) b)
    r (((b.getD r []).set c v).countP (fun x => x == e)) hmap
  have key2 : (List.map (fun row => row.countP (fun x => x == e)) b)[r]
      = (b.getD r []).countP (fun x => x == e) := by
    rw [List.getElem_map, List.getD_eq_getElem _ _ hrlen]
  have key3 := @countP_set_indicator (b.getD r []) c v (fun x => x == e) hclen
  have hgc : getCell b r c = (b.getD r [])[c] := List.getD_eq_getElem _ _ hclen
  have hnew : emptyCount (setCell b r c v) e
      = ((List.map (fun row => row.countP (fun x => x == e)) b).set r
          (((b.getD r []).set c v).countP (fun x => x == e))).sum := by
    unfold emptyCount setCell
    rw [List.map_set]
  have hold : emptyCount b e
      = (List.map (fun row => row.countP (fun x => x == e)) b).sum := rfl
  rw [hnew, hold, hgc]
  rw [key2] at key1
  omega

theorem emptyCount_le_81 {b : Board} (hb : Board9 b) (e : Cell) :
    emptyCount b e ≤ 81 := by
  have h : ∀ x ∈ List.map (fun row => row.countP (fun x => x == e)) b, x ≤ 9 := by
    intro x hx
    obtain ⟨row, hrow, hval⟩ := List.mem_map.1 hx
    rw [← hval]
    calc row.countP (fun x => x == e) ≤ row.length := List.countP_le_length _
    _ = 9 := rows_length hb row hrow
  have hsum := List.sum_le_card_nsmul _ 9 h
  rw [List.length_map, hb.1] at hsum
  unfold emptyCount
  simpa using hsum

theorem emptyCount_eq_zero_iff {b : Board} (hb : Board9 b) {e : Cell} :
    emptyCount b e = 0 ↔ get_empty b e = none := by
  rw [get_empty_eq_none_iff]
  unfold emptyCount
  rw [List.sum_eq_zero_iff]
  constructor
  · intro h r hr c hc hcell
    have hrlen : r < b.length := by rw [hb.1]; exact hr
    have hclen : c < (b.getD r []).length := by rw [hb.2 r hr]; exact hc
    have hmem : (b.getD r []).countP (fun x => x == e)
        ∈ List.map (fun row => row.countP (fun x => x == e)) b :=
      List.mem_map_of_mem _ (getD_mem hrlen)
    have hzero := h _ hmem
    rw [List.countP_eq_zero] at hzero
    have hcmem : getCell b r c ∈ b.getD r [] := by
      unfold getCell
      rw [List.getD_eq_getElem _ _ hclen]
      exact List.getElem_mem hclen
    exact hzero _ hcmem (by simpa using hcell)
  · intro h x hx
    obtain ⟨row, hrow, hval⟩ := List.mem_map.1 hx
    rw [← hval, List.countP_eq_zero]
    intro a ha hbeq
    obtain ⟨i, hi, hbi⟩ := List.mem_iff_getElem.1 hrow
    obtain ⟨j, hj, haj⟩ := List.mem_iff_getElem.1 ha
    have hrowD : b.getD i [] = row := by
      rw [List.getD_eq_getElem _ _ hi]; exact hbi
    have hi9 : i < 9 := by rw [← hb.1]; exact hi
    have hj9 : j < 9 := by
      rw [← rows_length hb row hrow]; exact hj
    have : getCell b i j = a := by
      unfold getCell
      rw [hrowD, List.getD_eq_getElem _ _ hj]
      exact haj
    exact h i hi9 j hj9 (this.trans (by simpa using hbeq))

/-! ## Pointwise description of `is_valid_entry` -/

theorem contains_iff_mem {l : List Cell} {v : Cell} :
    l.contains v = true ↔ v ∈ l := by
  rw [List.contains_eq_any_beq, List.any_eq_true]
  constructor
  · rintro ⟨x, hx, hbeq⟩
    rw [show v = x from by simpa using hbeq]
    exact hx
  · intro hv
    exact ⟨v, hv, by simp⟩

theorem mem_column_iff {b : Board} (hb : Board9 b) {c : Nat} {v : Cell} :
    v ∈ b.map (fun row => row.getD c 0) ↔ ∃ i, i < 9 ∧ getCell b i c = v := by
  rw [List.mem_map]
  constructor
  · rintro ⟨row, hrow, hval⟩
    obtain ⟨i, hi, hbi⟩ := List.mem_iff_getElem.1 hrow
    refine ⟨i, by rw [← hb.1]; exact hi, ?_⟩
    unfold getCell
    rw [List.getD_eq_getElem _ _ hi, hbi]
    exact hval
  · rintro ⟨i, hi, hv⟩
    have hil : i < b.length := by rw [hb.1]; exact hi
    refine ⟨b.getD i [], getD_mem hil, hv⟩

theorem mem_row_iff {b : Board} (hb : Board9 b) {r : Nat} (hr : r < 9)
    {v : Cell} :
    v ∈ b.getD r [] ↔ ∃ j, j < 9 ∧ getCell b r j = v := by
  rw [List.mem_iff_getElem]
  constructor
  · rintro ⟨j, hj, hv⟩
    refine ⟨j, by rw [← hb.2 r hr]; exact hj, ?_⟩
    unfold getCell
    rw [List.getD_eq_getElem _ _ hj]
    exact hv
  · rintro ⟨j, hj, hv⟩
    have hjl : j < (b.getD r []).length := by rw [hb.2 r hr]; exact hj
    refine ⟨j, hjl, ?_⟩
    rw [← List.getD_eq_getElem (b.getD r []) 0 hjl]
    exact hv

theorem mem_slice3_iff {l : List Cell} (hl : l.length = 9) {x : Nat}
    (hx : x + 3 ≤ 9) {v : Cell} :
    v ∈ (l.drop x).take 3 ↔ ∃ j, j < 3 ∧ l.getD (x + j) 0 = v := by
  have hlen : ((l.drop x).take 3).length = 3 := by
    rw [List.length_take, List.length_drop, hl]
    omega
  rw [List.mem_iff_getElem]
  constructor
  · rintro ⟨j, hj, hv⟩
    rw [hlen] at hj
    refine ⟨j, hj, ?_⟩
    have hxj : x + j < l.length := by omega
    rw [List.getD_eq_getElem _ _ hxj, ← hv]
    rw [List.getElem_take, List.getElem_drop]
  · rintro ⟨j, hj, hv⟩
    refine ⟨j, by rw [hlen]; exact hj, ?_⟩
    have hxj : x + j < l.length := by omega
    rw [List.getElem_take, List.getElem_drop]
    rw [List.getD_eq_getElem _ _ hxj] at hv
    exact hv

theorem mem_square_iff {b : Board} (hb : Board9 b) {r c : Nat} (hr : r < 9)
    (hc : c < 9) {v : Cell} :
    v ∈ get_values_in_square b r c ↔
      ∃ i j, i < 3 ∧ j < 3 ∧ getCell b (r / 3 * 3 + i) (c / 3 * 3 + j) = v := by
  have hx : c / 3 * 3 + 3 ≤ 9 := by omega
  have hy0 : r / 3 * 3 < 9 := by omega
  have hy1 : r / 3 * 3 + 1 < 9 := by omega
  have hy2 : r / 3 * 3 + 2 < 9 := by omega
  unfold get_values_in_square
  simp only [List.mem_append]
  rw [mem_slice3_iff (hb.2 _ hy0) hx, mem_slice3_iff (hb.2 _ hy1) hx,
    mem_slice3_iff (hb.2 _ hy2) hx]
  unfold getCell
  constructor
  · rintro ((⟨j, hj, hv⟩ | ⟨j, hj, hv⟩) | ⟨j, hj, hv⟩)
    · exact ⟨0, j, by omega, hj, by rw [Nat.add_zero]; exact hv⟩
    · exact ⟨1, j, by omega, hj, hv⟩
    · exact ⟨2, j, by omega, hj, hv⟩
  · rintro ⟨i, j, hi, hj, hv⟩
    interval_cases i
    · left; left
      exact ⟨j, hj, by rw [Nat.add_zero] at hv; exact hv⟩
    · left; right
      exact ⟨j, hj, hv⟩
    · right
      exact ⟨j, hj, hv⟩

theorem is_valid_entry_iff {b : Board} (hb : Board9 b) {r c : Nat}
    (hr : r < 9) (hc : c < 9) {v : Cell} :
    is_valid_entry b r c v = true ↔
      (∀ i, i < 9 → getCell b i c ≠ v) ∧ (∀ j, j < 9 → getCell b r j ≠ v) ∧
      (∀ i j, i < 3 → j < 3 → getCell b (r / 3 * 3 + i) (c / 3 * 3 + j) ≠ v) := by
  unfold is_valid_entry
  rw [Bool.not_eq_true', ← Bool.not_eq_true, contains_iff_mem]
  simp only [List.mem_append]
  rw [mem_column_iff hb, mem_row_iff hb hr, mem_square_iff hb hr hc]
  push_neg
  constructor
  · intro h
    refine ⟨?_, ?_, ?_⟩
    · intro i hi hv
      exact h.1.1 i hi hv
    · intro j hj hv
      exact h.1.2 j hj hv
    · intro i j hi hj hv
      exact h.2 i j hi hj hv
  · intro h
    exact ⟨⟨fun i hi hv => h.1 i hi hv, fun j hj hv => h.2.1 j hj hv⟩,
      fun i j hi hj hv => h.2.2 i j hi hj hv⟩

/-- A value accepted by `is_valid_entry` at a sentinel cell differs from the
sentinel (the sentinel is in the row being checked). -/
theorem ive_ne_sentinel {b : Board} (hb : Board9 b) {r c : Nat} {e v : Cell}
    (hr : r < 9) (hc : c < 9) (he : getCell b r c = e)
    (hv : is_valid_entry b r c v = true) : v ≠ e := by
  have h := ((is_valid_entry_iff hb hr hc).1 hv).2.1 c hc
  intro hve
  exact h (by rw [he, hve])

/-! ## `validLoop` and `is_valid_board` -/

theorem validLoop_pass {b : Board} {e : Cell} (cells : List (Nat × Nat))
    (h : ∀ rc ∈ cells, CellOK b e rc.1 rc.2) :
    validLoop b e cells = (true, b) := by
  induction cells with
  | nil => rfl
  | cons rc rest ih =>
    obtain ⟨r, c⟩ := rc
    have hok : CellOK b e r c := h _ (List.mem_cons_self _ _)
    rw [validLoop]
    by_cases hve : getCell b r c = e
    · rw [if_pos (by simpa using hve)]
      exact ih (fun x hx => h x (List.mem_cons_of_mem _ hx))
    · rw [if_neg (by simpa using hve)]
      cases hok with
      | inl h1 => exact absurd h1 hve
      | inr h2 =>
        rw [if_pos h2, setCell_restore e rfl]
        exact ih (fun x hx => h x (List.mem_cons_of_mem _ hx))

theorem validLoop_true {b : Board} {e : Cell} (cells : List (Nat × Nat))
    {b' : Board} (h : validLoop b e cells = (true, b')) :
    b' = b ∧ ∀ rc ∈ cells, CellOK b e rc.1 rc.2 := by
  induction cells with
  | nil =>
    rw [validLoop] at h
    exact ⟨(Prod.mk.injEq _ _ _ _ ▸ h).2.symm, by simp⟩
  | cons rc rest ih =>
    obtain ⟨r, c⟩ := rc
    rw [validLoop] at h
    by_cases hve : getCell b r c = e
    · rw [if_pos (by simpa using hve)] at h
      obtain ⟨hb', hall⟩ := ih h
      refine ⟨hb', ?_⟩
      intro x hx
      rcases List.mem_cons.1 hx with hx1 | hx2
      · rw [hx1]
        exact Or.inl hve
      · exact hall x hx2
    · rw [if_neg (by simpa using hve)] at h
      by_cases hiv : is_valid_entry (setCell b r c e) r c (getCell b r c) = true
      · rw [if_pos hiv, setCell_restore e rfl] at h
        obtain ⟨hb', hall⟩ := ih h
        refine ⟨hb', ?_⟩
        intro x hx
        rcases List.mem_cons.1 hx with hx1 | hx2
        · rw [hx1]
          exact Or.inr hiv
        · exact hall x hx2
      · rw [if_neg hiv] at h
        exact absurd (congrArg Prod.fst h) (by simp)

theorem validLoop_false {b : Board} {e : Cell} (cells : List (Nat × Nat))
    {b' : Board} (h : validLoop b e cells = (false, b')) :
    ∃ r c, (r, c) ∈ cells ∧ getCell b r c ≠ e ∧ b' = setCell b r c e ∧
      is_valid_entry (setCell b r c e) r c (getCell b r c) = false := by
  induction cells with
  | nil =>
    rw [validLoop] at h
    exact absurd (congrArg Prod.fst h) (by simp)
  | cons rc rest ih =>
    obtain ⟨r, c⟩ := rc
    rw [validLoop] at h
    by_cases hve : getCell b r c = e
    · rw [if_pos (by simpa using hve)] at h
      obtain ⟨r', c', hmem, hrest⟩ := ih h
      exact ⟨r', c', List.mem_cons_of_mem _ hmem, hrest⟩
    · rw [if_neg (by simpa using hve)] at h
      by_cases hiv : is_valid_entry (setCell b r c e) r c (getCell b r c) = true
      · rw [if_pos hiv, setCell_restore e rfl] at h
        obtain ⟨r', c', hmem, hrest⟩ := ih h
        exact ⟨r', c', List.mem_cons_of_mem _ hmem, hrest⟩
      · rw [if_neg hiv] at h
        refine ⟨r, c, List.mem_cons_self _ _, hve, ?_, ?_⟩
        · exact (Prod.mk.injEq _ _ _ _ ▸ h).2.symm
        · simpa using hiv

theorem mem_allCells_iff {rc : Nat × Nat} :
    rc ∈ allCells ↔ rc.1 < 9 ∧ rc.2 < 9 := by
  obtain ⟨r, c⟩ := rc
  unfold allCells
  simp [List.mem_flatMap, List.mem_map, List.mem_range]

theorem board_shape_iff {b : Board} :
    ¬(b.length ≠ 9 ∨ b.any (fun row => row.length ≠ 9) = true) ↔ Board9 b := by
  rw [not_or]
  constructor
  · rintro ⟨h1, h2⟩
    have hlen : b.length = 9 := by omega
    refine ⟨hlen, ?_⟩
    intro r hr
    by_contra hne
    apply h2
    rw [List.any_eq_true]
    refine ⟨b.getD r [], getD_mem (by omega), by simpa using hne⟩
  · rintro ⟨h1, h2⟩
    refine ⟨by omega, ?_⟩
    intro hany
    rw [List.any_eq_true] at hany
    obtain ⟨row, hrow, hne⟩ := hany
    have hlen := rows_length ⟨h1, h2⟩ row hrow
    simp [hlen] at hne

theorem is_valid_board_ok {b : Board} {e : Cell} (hb : Board9 b)
    (hv : ValidB b e) : is_valid_board b e = .ok (true, b) := by
  unfold is_valid_board
  rw [if_neg (board_shape_iff.2 hb)]
  rw [validLoop_pass allCells
    (fun rc hrc => hv rc.1 (mem_allCells_iff.1 hrc).1 rc.2 (mem_allCells_iff.1 hrc).2)]

theorem is_valid_board_ok_true {b : Board} {e : Cell} {b' : Board}
    (h : is_valid_board b e = .ok (true, b')) :
    b' = b ∧ Board9 b ∧ ValidB b e := by
  unfold is_valid_board at h
  by_cases hshape : b.length ≠ 9 ∨ b.any (fun row => row.length ≠ 9) = true
  · rw [if_pos hshape] at h
    exact absurd h (by simp)
  · rw [if_neg hshape] at h
    have hb := board_shape_iff.1 hshape
    have hloop : validLoop b e allCells = (true, b') := by
      have := Except.ok.inj h
      rw [← this]
    obtain ⟨hb', hall⟩ := validLoop_true allCells hloop
    exact ⟨hb', hb, fun r hr c hc => hall (r, c) (mem_allCells_iff.2 ⟨hr, hc⟩)⟩

/-! ## Placing a valid entry preserves board validity -/

theorem setCell_self_of_eq {b : Board} {r c : Nat} {e : Cell}
    (he : getCell b r c = e) : setCell b r c e = b := by
  rw [← he, setCell_getCell_self]

theorem valid_preserve {b : Board} {e v : Cell} {r c : Nat}
    (hb : Board9 b) (hr : r < 9) (hc : c < 9)
    (he : getCell b r c = e) (hv : is_valid_entry b r c v = true)
    (hval : ValidB b e) : ValidB (setCell b r c v) e := by
  obtain ⟨hcolv, hrowv, hboxv⟩ := (is_valid_entry_iff hb hr hc).1 hv
  intro r' hr' c' hc'
  unfold CellOK
  by_cases hsame : r = r' ∧ c = c'
  · obtain ⟨rfl, rfl⟩ := hsame
    right
    rw [getCell_setCell_self v (by rw [hb.1]; exact hr) (by rw [hb.2 r hr]; exact hc)]
    rw [setCell_setCell, setCell_self_of_eq he]
    exact hv
  · rw [getCell_setCell_ne v hsame]
    by_cases hve : getCell b r' c' = e
    · exact Or.inl hve
    · right
      have hold : is_valid_entry (setCell b r' c' e) r' c' (getCell b r' c') = true := by
        cases hval r' hr' c' hc' with
        | inl h1 => exact absurd h1 hve
        | inr h2 => exact h2
      rw [setCell_comm v e hsame]
      have hbB : Board9 (setCell b r' c' e) := Board9_setCell hb r' c' e
      have hbB2 : Board9 (setCell (setCell b r' c' e) r c v) :=
        Board9_setCell hbB r c v
      rw [is_valid_entry_iff hbB2 hr' hc']
      obtain ⟨hcol, hrow, hbox⟩ := (is_valid_entry_iff hbB hr' hc').1 hold
      have hselfB2 : ∀ i j, i < 9 → j < 9 → r = i → c = j →
          getCell (setCell (setCell b r' c' e) r c v) i j = v := by
        intro i j _ _ hri hcj
        subst hri; subst hcj
        exact getCell_setCell_self v (by rw [hbB.1]; exact hr)
          (by rw [hbB.2 r hr]; exact hc)
      refine ⟨?_, ?_, ?_⟩
      · intro i hi
        by_cases hp : r = i ∧ c = c'
        · obtain ⟨rfl, rfl⟩ := hp
          rw [hselfB2 r c hr hc rfl rfl]
          exact fun hh => hcolv r' hr' hh.symm
        · rw [getCell_setCell_ne v hp]
          exact hcol i hi
      · intro j hj
        by_cases hp : r = r' ∧ c = j
        · obtain ⟨rfl, rfl⟩ := hp
          rw [hselfB2 r c hr hc rfl rfl]
          exact fun hh => hrowv c' hc' hh.symm
        · rw [getCell_setCell_ne v hp]
          exact hrow j hj
      · intro i j hi hj
        by_cases hp : r = r' / 3 * 3 + i ∧ c = c' / 3 * 3 + j
        · obtain ⟨hp1, hp2⟩ := hp
          rw [← hp1, ← hp2, hselfB2 r c hr hc rfl rfl]
          have hrdiv : r / 3 = r' / 3 := by omega
          have hcdiv : c / 3 = c' / 3 := by omega
          have hfact := hboxv (r' % 3) (c' % 3) (Nat.mod_lt _ (by omega))
            (Nat.mod_lt _ (by omega))
          have hr'eq : r / 3 * 3 + r' % 3 = r' := by omega
          have hc'eq : c / 3 * 3 + c' % 3 = c' := by omega
          rw [hr'eq, hc'eq] at hfact
          exact fun hh => hfact hh.symm
        · rw [getCell_setCell_ne v hp]
          exact hbox i j hi hj

/-! ## Solver lemmas -/

theorem pair_eq_fst {α β : Type} {a c : α} {b d : β} (h : (a, b) = (c, d)) :
    a = c := congrArg Prod.fst h

theorem pair_eq_snd {α β : Type} {a c : α} {b d : β} (h : (a, b) = (c, d)) :
    b = d := congrArg Prod.snd h

theorem fill_step_false {f : Board → Bool × Board} {e : Cell} {r c : Nat}
    {b : Board} (v : Cell) :
    fill_step f e r c (false, b) v
      = if is_valid_entry b r c v then
          (if (f (setCell b r c v)).1 then (true, (f (setCell b r c v)).2)
           else (false, setCell (f (setCell b r c v)).2 r c e))
        else (false, b) := rfl

theorem fill_fold_skip {f : Board → Bool × Board} {e : Cell} {r c : Nat}
    (vs : List Cell) (st : Bool × Board) (h : st.1 = true) :
    vs.foldl (fill_step f e r c) st = st := by
  induction vs with
  | nil => rfl
  | cons v vs ih =>
    rw [List.foldl_cons, show fill_step f e r c st v = st from by
      unfold fill_step
      rw [if_pos h]]
    exact ih

theorem fill_fold_res {f : Board → Bool × Board} {e : Cell} {r c : Nat}
    {b : Board} (hf : ∀ b2 b3, f b2 = (false, b3) → b3 = b2)
    (hrc : getCell b r c = e) (vs : List Cell) (b' : Board) :
    (vs.foldl (fill_step f e r c) (false, b) = (false, b') → b' = b) ∧
    (vs.foldl (fill_step f e r c) (false, b) = (true, b') →
      ∃ v ∈ vs, is_valid_entry b r c v = true ∧ f (setCell b r c v) = (true, b')) := by
  induction vs with
  | nil =>
    constructor
    · intro h
      exact (pair_eq_snd h).symm
    · intro h
      exact absurd (pair_eq_fst h) (by simp)
  | cons v vs ih =>
    by_cases hiv : is_valid_entry b r c v = true
    · cases hfb : f (setCell b r c v) with
      | mk q b1 =>
        cases q with
        | true =>
          have hstep : fill_step f e r c (false, b) v = (true, b1) := by
            rw [fill_step_false, if_pos hiv, hfb, if_pos (by rfl)]
          constructor
          · intro h
            rw [List.foldl_cons, hstep, fill_fold_skip _ _ rfl] at h
            exact absurd (pair_eq_fst h) (by simp)
          · intro h
            rw [List.foldl_cons, hstep, fill_fold_skip _ _ rfl] at h
            refine ⟨v, List.mem_cons_self _ _, hiv, ?_⟩
            rw [hfb, pair_eq_snd h]
        | false =>
          have hb1 : b1 = setCell b r c v := hf _ _ hfb
          have hstep : fill_step f e r c (false, b) v = (false, b) := by
            rw [fill_step_false, if_pos hiv, hfb, if_neg (by simp)]
            rw [show ((false, b1) : Bool × Board).2 = b1 from rfl, hb1,
              setCell_restore v hrc]
          constructor
          · intro h
            rw [List.foldl_cons, hstep] at h
            exact ih.1 h
          · intro h
            rw [List.foldl_cons, hstep] at h
            obtain ⟨u, hu, hres⟩ := ih.2 h
            exact ⟨u, List.mem_cons_of_mem _ hu, hres⟩
    · have hstep : fill_step f e r c (false, b) v = (false, b) := by
        rw [fill_step_false, if_neg hiv]
      constructor
      · intro h
        rw [List.foldl_cons, hstep] at h
        exact ih.1 h
      · intro h
        rw [List.foldl_cons, hstep] at h
        obtain ⟨u, hu, hres⟩ := ih.2 h
        exact ⟨u, List.mem_cons_of_mem _ hu, hres⟩

theorem fill_go_false {fuel : Nat} {b : Board} {e : Cell} {b' : Board}
    (h : fill_go fuel b e = (false, b')) : b' = b := by
  induction fuel generalizing b b' with
  | zero =>
    rw [fill_go] at h
    exact (pair_eq_snd h).symm
  | succ fuel ih =>
    cases hge : get_empty b e with
    | none =>
      rw [fill_go, hge] at h
      exact absurd (pair_eq_fst h) (by simp)
    | some rc =>
      obtain ⟨r, c⟩ := rc
      simp only [fill_go, hge] at h
      have hrc := (get_empty_eq_some hge).2.2
      exact (fill_fold_res (fun b2 b3 hh => ih hh) hrc digits b').1 h

theorem fill_go_true {fuel : Nat} {b : Board} {e : Cell} {b' : Board}
    (h : fill_go (fuel+1) b e = (true, b')) :
    (get_empty b e = none ∧ b' = b) ∨
      (∃ r c v, get_empty b e = some (r, c) ∧ is_valid_entry b r c v = true ∧
        v ∈ digits ∧ fill_go fuel (setCell b r c v) e = (true, b')) := by
  cases hge : get_empty b e with
  | none =>
    rw [fill_go, hge] at h
    exact Or.inl ⟨rfl, (pair_eq_snd h).symm⟩
  | some rc =>
    obtain ⟨r, c⟩ := rc
    simp only [fill_go, hge] at h
    have hrc := (get_empty_eq_some hge).2.2
    obtain ⟨v, hv, hiv, hres⟩ :=
      (fill_fold_res (fun b2 b3 hh => fill_go_false hh) hrc digits b').2 h
    exact Or.inr ⟨r, c, v, rfl, hiv, hv, hres⟩

theorem fill_go_true_getEmpty {fuel : Nat} {b : Board} {e : Cell} {b' : Board}
    (h : fill_go fuel b e = (true, b')) : get_empty b' e = none := by
  induction fuel generalizing b b' with
  | zero =>
    rw [fill_go] at h
    exact absurd (pair_eq_fst h) (by simp)
  | succ fuel ih =>
    rcases fill_go_true h with ⟨hge, rfl⟩ | ⟨r, c, v, hge, hiv, hvd, hres⟩
    · exact hge
    · exact ih hres

theorem fill_go_true_props {fuel : Nat} {b : Board} {e : Cell} {b' : Board}
    (hb : Board9 b) (hval : ValidB b e)
    (h : fill_go fuel b e = (true, b')) : Board9 b' ∧ ValidB b' e := by
  induction fuel generalizing b b' with
  | zero =>
    rw [fill_go] at h
    exact absurd (pair_eq_fst h) (by simp)
  | succ fuel ih =>
    rcases fill_go_true h with ⟨hge, rfl⟩ | ⟨r, c, v, hge, hiv, hvd, hres⟩
    · exact ⟨hb, hval⟩
    · obtain ⟨hr, hc, hrc⟩ := get_empty_eq_some hge
      exact ih (Board9_setCell hb r c v)
        (valid_preserve hb hr hc hrc hiv hval) hres

theorem fill_fold_succeeds {f : Board → Bool × Board} {e : Cell} {r c : Nat}
    {b : Board} (hf : ∀ b2 b3, f b2 = (false, b3) → b3 = b2)
    (hrc : getCell b r c = e) (vs : List Cell) (v : Cell) (hv : v ∈ vs)
    (hiv : is_valid_entry b r c v = true)
    (hsucc : (f (setCell b r c v)).1 = true) :
    (vs.foldl (fill_step f e r c) (false, b)).1 = true := by
  induction vs with
  | nil => exact absurd hv (by simp)
  | cons u us ih =>
    rcases List.mem_cons.1 hv with rfl | hvus
    · rw [List.foldl_cons, fill_step_false, if_pos hiv, if_pos hsucc,
        fill_fold_skip _ _ rfl]
    · rw [List.foldl_cons, fill_step_false]
      by_cases hivu : is_valid_entry b r c u = true
      · rw [if_pos hivu]
        by_cases hq : (f (setCell b r c u)).1 = true
        · rw [if_pos hq, fill_fold_skip _ _ rfl]
        · rw [if_neg hq]
          have hfu : f (setCell b r c u) = (false, (f (setCell b r c u)).2) := by
            have hqq : (f (setCell b r c u)).1 = false := by
              cases hx : (f (setCell b r c u)).1
              · rfl
              · exact absurd hx hq
            rw [← hqq]
          have hrest : (f (setCell b r c u)).2 = setCell b r c u := hf _ _ hfu
          rw [hrest, setCell_restore u hrc]
          exact ih hvus
      · rw [if_neg hivu]
        exact ih hvus

/-! ## Counter lemmas -/

theorem count_step_false {f : Board → Int × Board} {limit : Int} {e : Cell}
    {r c : Nat} {n : Int} {b : Board} (v : Cell) :
    count_step f limit e r c (false, n, b) v
      = if is_valid_entry b r c v then
          (decide (limit ≤ n + (f (setCell b r c v)).1),
            n + (f (setCell b r c v)).1,
            setCell (f (setCell b r c v)).2 r c e)
        else (false, n, b) := rfl

theorem count_fold_skip {f : Board → Int × Board} {limit : Int} {e : Cell}
    {r c : Nat} (vs : List Cell) (st : Bool × Int × Board) (h : st.1 = true) :
    vs.foldl (count_step f limit e r c) st = st := by
  induction vs with
  | nil => rfl
  | cons v vs ih =>
    rw [List.foldl_cons, show count_step f limit e r c st v = st from by
      unfold count_step
      rw [if_pos h]]
    exact ih

theorem count_step_cases {f : Board → Int × Board} {limit : Int} {e : Cell}
    {r c : Nat} (st : Bool × Int × Board) (v : Cell) :
    count_step f limit e r c st v = st ∨
      (st.1 = false ∧ is_valid_entry st.2.2 r c v = true ∧
        count_step f limit e r c st v
          = (decide (limit ≤ st.2.1 + (f (setCell st.2.2 r c v)).1),
             st.2.1 + (f (setCell st.2.2 r c v)).1,
             setCell (f (setCell st.2.2 r c v)).2 r c e)) := by
  by_cases h1 : st.1 = true
  · left
    unfold count_step
    rw [if_pos h1]
  · have h1f : st.1 = false := by
      cases hx : st.1
      · rfl
      · exact absurd hx h1
    by_cases h2 : is_valid_entry st.2.2 r c v = true
    · right
      refine ⟨h1f, h2, ?_⟩
      unfold count_step
      rw [if_neg h1, if_pos h2]
    · left
      unfold count_step
      rw [if_neg h1, if_neg h2]

theorem count_fold_board {f : Board → Int × Board} {limit : Int} {e : Cell}
    {r c : Nat} {b : Board} (hf2 : ∀ b2, (f b2).2 = b2)
    (hrc : getCell b r c = e) (vs : List Cell) :
    ∀ st : Bool × Int × Board, st.2.2 = b →
      (vs.foldl (count_step f limit e r c) st).2.2 = b := by
  induction vs with
  | nil =>
    intro st h
    exact h
  | cons v vs ih =>
    intro st h
    rw [List.foldl_cons]
    rcases count_step_cases st v with
      heq | ⟨h1, h2, heq⟩
    · rw [heq]
      exact ih st h
    · rw [heq]
      apply ih
      show setCell (f (setCell st.2.2 r c v)).2 r c e = b
      rw [hf2, h, setCell_restore v hrc]

theorem count_fold_nonneg {f : Board → Int × Board} {limit : Int} {e : Cell}
    {r c : Nat} (hf1 : ∀ b2, 0 ≤ (f b2).1) (vs : List Cell) :
    ∀ st : Bool × Int × Board, 0 ≤ st.2.1 →
      0 ≤ (vs.foldl (count_step f limit e r c) st).2.1 := by
  induction vs with
  | nil =>
    intro st h
    exact h
  | cons v vs ih =>
    intro st h
    rw [List.foldl_cons]
    rcases count_step_cases st v with
      heq | ⟨h1, h2, heq⟩
    · rw [heq]
      exact ih st h
    · rw [heq]
      apply ih
      show 0 ≤ st.2.1 + (f (setCell st.2.2 r c v)).1
      have := hf1 (setCell st.2.2 r c v)
      omega

theorem count_go_snd : ∀ (fuel : Nat) (b : Board) (limit : Int) (e : Cell),
    (count_go fuel b limit e).2 = b := by
  intro fuel
  induction fuel with
  | zero =>
    intro b limit e
    rfl
  | succ fuel ih =>
    intro b limit e
    cases hge : get_empty b e with
    | none => simp [count_go, hge]
    | some rc =>
      obtain ⟨r, c⟩ := rc
      have hrc := (get_empty_eq_some hge).2.2
      simp only [count_go, hge]
      exact count_fold_board (fun b2 => ih b2 limit e) hrc digits
        (false, 0, b) rfl

theorem count_go_nonneg : ∀ (fuel : Nat) (b : Board) (limit : Int) (e : Cell),
    0 ≤ (count_go fuel b limit e).1 := by
  intro fuel
  induction fuel with
  | zero =>
    intro b limit e
    simp [count_go]
  | succ fuel ih =>
    intro b limit e
    cases hge : get_empty b e with
    | none => simp [count_go, hge]
    | some rc =>
      obtain ⟨r, c⟩ := rc
      simp only [count_go, hge]
      exact count_fold_nonneg (fun b2 => ih b2 limit e) digits
        (false, 0, b) (le_refl 0)

theorem emptyCount_pos {b : Board} {e : Cell} {r c : Nat} (hb : Board9 b)
    (h : get_empty b e = some (r, c)) : 1 ≤ emptyCount b e := by
  by_contra hlt
  have hz : emptyCount b e = 0 := by omega
  rw [(emptyCount_eq_zero_iff hb).1 hz] at h
  exact absurd h (by simp)

theorem count_fold_bound {f : Board → Int × Board} {e : Cell} {r c : Nat}
    {b : Board} {K : Int} (hf2 : ∀ b2, (f b2).2 = b2)
    (hrc : getCell b r c = e)
    (hK : ∀ v, is_valid_entry b r c v = true → (f (setCell b r c v)).1 ≤ K)
    (vs : List Cell) :
    ∀ st : Bool × Int × Board, st.2.2 = b → (st.1 = false → st.2.1 ≤ 1) →
      st.2.1 ≤ K + 1 →
      (vs.foldl (count_step f 2 e r c) st).2.1 ≤ K + 1 := by
  induction vs with
  | nil =>
    intro st hb2 hbr hle
    exact hle
  | cons v vs ih =>
    intro st hb2 hbr hle
    rw [List.foldl_cons]
    rcases count_step_cases st v with
      heq | ⟨h1, h2, heq⟩
    · rw [heq]
      exact ih st hb2 hbr hle
    · rw [heq]
      have hcnt : st.2.1 ≤ 1 := hbr h1
      have hkv : (f (setCell st.2.2 r c v)).1 ≤ K := by
        rw [hb2]
        rw [hb2] at h2
        exact hK v h2
      apply ih
      · show setCell (f (setCell st.2.2 r c v)).2 r c e = b
        rw [hf2, hb2, setCell_restore v hrc]
      · intro hdec
        show st.2.1 + (f (setCell st.2.2 r c v)).1 ≤ 1
        have := of_decide_eq_false hdec
        omega
      · show st.2.1 + (f (setCell st.2.2 r c v)).1 ≤ K + 1
        omega

theorem count_go_full {fuel : Nat} {b : Board} {limit : Int} {e : Cell}
    (h : get_empty b e = none) : count_go (fuel+1) b limit e = (1, b) := by
  simp [count_go, h]

theorem count_go_bound : ∀ (fuel : Nat) (b : Board) (e : Cell), Board9 b →
    (count_go fuel b 2 e).1 ≤ (emptyCount b e : Int) + 1 := by
  intro fuel
  induction fuel with
  | zero =>
    intro b e hb
    have : (0 : Int) ≤ (emptyCount b e : Int) := by positivity
    simp [count_go]
    omega
  | succ fuel ih =>
    intro b e hb
    cases hge : get_empty b e with
    | none =>
      have h0 : (0 : Int) ≤ (emptyCount b e : Int) := by positivity
      rw [count_go_full hge]
      show (1 : Int) ≤ (emptyCount b e : Int) + 1
      omega
    | some rc =>
      obtain ⟨r, c⟩ := rc
      obtain ⟨hr, hc, hrc⟩ := get_empty_eq_some hge
      have hpos := emptyCount_pos hb hge
      simp only [count_go, hge]
      have hK : ∀ v, is_valid_entry b r c v = true →
          (count_go fuel (setCell b r c v) 2 e).1 ≤ (emptyCount b e : Int) := by
        intro v hiv
        have hne := ive_ne_sentinel hb hr hc hrc hiv
        have hdec := @emptyCount_setCell b e r c hb hr hc v
        rw [if_pos (by simpa using hrc), if_neg (by simpa using hne)] at hdec
        have hsub := ih (setCell b r c v) e (Board9_setCell hb r c v)
        omega
      exact count_fold_bound (fun b2 => count_go_snd fuel b2 2 e) hrc
        hK digits (false, 0, b) rfl
        (fun _ => by norm_num) (by positivity)

theorem count_solutions_full {b : Board} {limit : Int} {e : Cell}
    (h : get_empty b e = none) : count_solutions b limit e = (1, b) :=
  @count_go_full 99 b limit e h

theorem count_solutions_snd (b : Board) (limit : Int) (e : Cell) :
    (count_solutions b limit e).2 = b := count_go_snd 100 b limit e

/-! ## Carving lemmas -/

theorem agreesOn_setCell_e {b sol : Board} {e : Cell} {r c : Nat}
    (hb : Board9 b) (hr : r < 9) (hc : c < 9) (h : agreesOn b sol e) :
    agreesOn (setCell b r c e) sol e := by
  intro r' hr' c' hc' hne
  by_cases hp : r = r' ∧ c = c'
  · obtain ⟨rfl, rfl⟩ := hp
    rw [getCell_setCell_self e (by rw [hb.1]; exact hr)
      (by rw [hb.2 r hr]; exact hc)] at hne
    exact absurd rfl hne
  · rw [getCell_setCell_ne e hp] at *
    exact h r' hr' c' hc' hne

theorem carve_stop {rng : Nat → Fin 9 × Fin 9} {total : Nat} {e : Cell}
    {gas : Nat} {b : Board} {n a : Nat} (h : total ≤ n ∨ gas = 0) :
    carve_go rng total e gas b n a = b := by
  cases gas with
  | zero => rfl
  | succ gas =>
    rcases h with h | h
    · rw [carve_go, if_neg (by omega)]
    · exact absurd h (by simp)

theorem carve_unique {rng : Nat → Fin 9 × Fin 9} {total : Nat} {e : Cell} :
    ∀ (gas : Nat) (b : Board) (n a : Nat),
      (count_solutions b 2 e).1 = 1 →
      (count_solutions (carve_go rng total e gas b n a) 2 e).1 = 1 := by
  intro gas
  induction gas with
  | zero =>
    intro b n a h
    exact h
  | succ gas ih =>
    intro b n a h
    by_cases hlt : n < total
    · simp only [carve_go, if_pos hlt]
      by_cases hcell : getCell b ((rng a).1 : Nat) ((rng a).2 : Nat) = e
      · rw [if_pos (by simpa using hcell)]
        exact ih b n (a+1) h
      · rw [if_neg (by simpa using hcell)]
        by_cases hsols :
            (count_solutions (setCell b ((rng a).1 : Nat) ((rng a).2 : Nat) e) 2 e).1 = 1
        · rw [if_pos (by simpa using hsols)]
          exact ih _ (n+1) (a+1) hsols
        · rw [if_neg (by simpa using hsols), setCell_restore e rfl]
          exact ih b n (a+1) h
    · rw [carve_stop (Or.inl (by omega))]
      exact h

theorem carve_board9 {rng : Nat → Fin 9 × Fin 9} {total : Nat} {e : Cell} :
    ∀ (gas : Nat) (b : Board) (n a : Nat), Board9 b →
      Board9 (carve_go rng total e gas b n a) := by
  intro gas
  induction gas with
  | zero =>
    intro b n a hb
    exact hb
  | succ gas ih =>
    intro b n a hb
    by_cases hlt : n < total
    · simp only [carve_go, if_pos hlt]
      by_cases hcell : getCell b ((rng a).1 : Nat) ((rng a).2 : Nat) = e
      · rw [if_pos (by simpa using hcell)]
        exact ih b n (a+1) hb
      · rw [if_neg (by simpa using hcell)]
        by_cases hsols :
            (count_solutions (setCell b ((rng a).1 : Nat) ((rng a).2 : Nat) e) 2 e).1 = 1
        · rw [if_pos (by simpa using hsols)]
          exact ih _ (n+1) (a+1) (Board9_setCell hb _ _ _)
        · rw [if_neg (by simpa using hsols), setCell_restore e rfl]
          exact ih b n (a+1) hb
    · rw [carve_stop (Or.inl (by omega))]
      exact hb

theorem carve_agrees {rng : Nat → Fin 9 × Fin 9} {total : Nat} {e : Cell}
    {sol : Board} :
    ∀ (gas : Nat) (b : Board) (n a : Nat), Board9 b → agreesOn b sol e →
      agreesOn (carve_go rng total e gas b n a) sol e := by
  intro gas
  induction gas with
  | zero =>
    intro b n a hb hag
    exact hag
  | succ gas ih =>
    intro b n a hb hag
    by_cases hlt : n < total
    · simp only [carve_go, if_pos hlt]
      by_cases hcell : getCell b ((rng a).1 : Nat) ((rng a).2 : Nat) = e
      · rw [if_pos (by simpa using hcell)]
        exact ih b n (a+1) hb hag
      · rw [if_neg (by simpa using hcell)]
        by_cases hsols :
            (count_solutions (setCell b ((rng a).1 : Nat) ((rng a).2 : Nat) e) 2 e).1 = 1
        · rw [if_pos (by simpa using hsols)]
          exact ih _ (n+1) (a+1) (Board9_setCell hb _ _ _)
            (agreesOn_setCell_e hb (Fin.is_lt _) (Fin.is_lt _) hag)
        · rw [if_neg (by simpa using hsols), setCell_restore e rfl]
          exact ih b n (a+1) hb hag
    · rw [carve_stop (Or.inl (by omega))]
      exact hag

/-! ## Removal-loop lemmas -/

theorem remove_go_props {rng : Nat → Fin 9 × Fin 9} {e : Cell} :
    ∀ (fuel : Nat) (b : Board) (rem i : Nat) (b2 : Board), Board9 b →
      remove_go rng e fuel b rem i = some b2 →
      Board9 b2 ∧ emptyCount b2 e = emptyCount b e + rem := by
  intro fuel
  induction fuel with
  | zero =>
    intro b rem i b2 hb h
    rw [remove_go] at h
    by_cases hrem : rem = 0
    · rw [if_pos hrem] at h
      rw [← Option.some.inj h, hrem]
      exact ⟨hb, rfl⟩
    · rw [if_neg hrem] at h
      exact absurd h (by simp)
  | succ fuel ih =>
    intro b rem i b2 hb h
    rw [remove_go] at h
    by_cases hrem : rem = 0
    · rw [if_pos hrem] at h
      rw [← Option.some.inj h, hrem]
      exact ⟨hb, rfl⟩
    · rw [if_neg hrem] at h
      by_cases hcell : getCell b ((rng i).1 : Nat) ((rng i).2 : Nat) = e
      · rw [if_pos (by simpa using hcell)] at h
        exact ih b rem (i+1) b2 hb h
      · rw [if_neg (by simpa using hcell)] at h
        obtain ⟨hb2, hec⟩ := ih _ (rem - 1) (i+1) b2
          (Board9_setCell hb _ _ _) h
        refine ⟨hb2, ?_⟩
        have hinc := @emptyCount_setCell b e ((rng i).1 : Nat) ((rng i).2 : Nat)
          hb (Fin.is_lt _) (Fin.is_lt _) e
        rw [if_neg (by simpa using hcell), if_pos (by simp)] at hinc
        omega

theorem remove_go_agrees {rng : Nat → Fin 9 × Fin 9} {e : Cell} {sol : Board} :
    ∀ (fuel : Nat) (b : Board) (rem i : Nat) (b2 : Board), Board9 b →
      agreesOn b sol e → remove_go rng e fuel b rem i = some b2 →
      agreesOn b2 sol e := by
  intro fuel
  induction fuel with
  | zero =>
    intro b rem i b2 hb hag h
    rw [remove_go] at h
    by_cases hrem : rem = 0
    · rw [if_pos hrem] at h
      rw [← Option.some.inj h]
      exact hag
    · rw [if_neg hrem] at h
      exact absurd h (by simp)
  | succ fuel ih =>
    intro b rem i b2 hb hag h
    rw [remove_go] at h
    by_cases hrem : rem = 0
    · rw [if_pos hrem] at h
      rw [← Option.some.inj h]
      exact hag
    · rw [if_neg hrem] at h
      by_cases hcell : getCell b ((rng i).1 : Nat) ((rng i).2 : Nat) = e
      · rw [if_pos (by simpa using hcell)] at h
        exact ih b rem (i+1) b2 hb hag h
      · rw [if_neg (by simpa using hcell)] at h
        exact ih _ (rem - 1) (i+1) b2 (Board9_setCell hb _ _ _)
          (agreesOn_setCell_e hb (Fin.is_lt _) (Fin.is_lt _) hag) h

/-! ## The seeded board -/

theorem Board9_emptyBoard (e : Cell) : Board9 (emptyBoard e) := by
  refine ⟨List.length_replicate _ _, ?_⟩
  intro r hr
  unfold emptyBoard
  rw [List.getD_eq_getElem _ _ (by rw [List.length_replicate]; exact hr),
    List.getElem_replicate, List.length_replicate]

theorem getCell_emptyBoard (e : Cell) {r c : Nat} (hr : r < 9) (hc : c < 9) :
    getCell (emptyBoard e) r c = e := by
  unfold getCell emptyBoard
  have hrow : (List.replicate 9 (List.replicate 9 e)).getD r []
      = List.replicate 9 e := by
    rw [List.getD_eq_getElem _ _ (by rw [List.length_replicate]; exact hr),
      List.getElem_replicate]
  rw [hrow, List.getD_eq_getElem _ _ (by rw [List.length_replicate]; exact hc),
    List.getElem_replicate]

theorem Board9_seedBoard (e : Cell) (c1 c2 c3 : Fin 9) (v1 v2 v3 : Cell) :
    Board9 (seedBoard e c1 c2 c3 v1 v2 v3) :=
  Board9_setCell (Board9_setCell (Board9_setCell (Board9_emptyBoard e) _ _ _) _ _ _) _ _ _

theorem getCell_seedBoard {e : Cell} {c1 c2 c3 : Fin 9} {v1 v2 v3 : Cell}
    (h12 : (c1 : Nat) ≠ c2) (h13 : (c1 : Nat) ≠ c3) (h23 : (c2 : Nat) ≠ c3)
    {r c : Nat} (hr : r < 9) (hc : c < 9) :
    getCell (seedBoard e c1 c2 c3 v1 v2 v3) r c
      = if r = 0 ∧ c = (c1 : Nat) then v1
        else if r = 0 ∧ c = (c2 : Nat) then v2
        else if r = 0 ∧ c = (c3 : Nat) then v3 else e := by
  have hb0 := Board9_emptyBoard e
  have hb1 := Board9_setCell hb0 0 (c1 : Nat) v1
  have hb2 := Board9_setCell hb1 0 (c2 : Nat) v2
  unfold seedBoard
  by_cases hp3 : 0 = r ∧ (c3 : Nat) = c
  · obtain ⟨rfl, rfl⟩ := hp3
    rw [getCell_setCell_self v3 (by rw [hb2.1]; omega)
      (by rw [hb2.2 0 (by omega)]; exact Fin.is_lt _)]
    rw [if_neg (fun hh => h13 hh.2.symm), if_neg (fun hh => h23 hh.2.symm),
      if_pos ⟨rfl, rfl⟩]
  · rw [getCell_setCell_ne v3 hp3]
    by_cases hp2 : 0 = r ∧ (c2 : Nat) = c
    · obtain ⟨rfl, rfl⟩ := hp2
      rw [getCell_setCell_self v2 (by rw [hb1.1]; omega)
        (by rw [hb1.2 0 (by omega)]; exact Fin.is_lt _)]
      rw [if_neg (fun hh => h12 hh.2.symm), if_pos ⟨rfl, rfl⟩]
    · rw [getCell_setCell_ne v2 hp2]
      by_cases hp1 : 0 = r ∧ (c1 : Nat) = c
      · obtain ⟨rfl, rfl⟩ := hp1
        rw [getCell_setCell_self v1 (by rw [hb0.1]; omega)
          (by rw [hb0.2 0 (by omega)]; exact Fin.is_lt _)]
        rw [if_pos ⟨rfl, rfl⟩]
      · rw [getCell_setCell_ne v1 hp1, getCell_emptyBoard e hr hc]
        rw [if_neg (fun hh => hp1 ⟨hh.1.symm, hh.2.symm⟩),
          if_neg (fun hh => hp2 ⟨hh.1.symm, hh.2.symm⟩),
          if_neg (fun hh => hp3 ⟨hh.1.symm, hh.2.symm⟩)]

/-- A 9x9 board whose non-sentinel cells all lie in row 0 and are pairwise
distinct passes the full-board validity check. -/
theorem ValidB_row0 {b : Board} {e : Cell} (hb : Board9 b)
    (hrow : ∀ r, 1 ≤ r → r < 9 → ∀ c, c < 9 → getCell b r c = e)
    (hdist : ∀ c c', c < 9 → c' < 9 → c ≠ c' → getCell b 0 c ≠ e →
      getCell b 0 c ≠ getCell b 0 c') :
    ValidB b e := by
  intro r hr c hc
  unfold CellOK
  by_cases hve : getCell b r c = e
  · exact Or.inl hve
  · right
    have hr0 : r = 0 := by
      by_contra h0
      exact hve (hrow r (by omega) hr c hc)
    subst hr0
    have hbB : Board9 (setCell b 0 c e) := Board9_setCell hb 0 c e
    rw [is_valid_entry_iff hbB (by omega) hc]
    have hself : getCell (setCell b 0 c e) 0 c = e :=
      getCell_setCell_self e (by rw [hb.1]; omega) (by rw [hb.2 0 (by omega)]; exact hc)
    refine ⟨?_, ?_, ?_⟩
    · intro i hi
      by_cases hp : 0 = i ∧ c = c
      · rw [← hp.1, hself]
        exact fun hh => hve hh.symm
      · have hi0 : i ≠ 0 := by
          intro hh
          exact hp ⟨hh.symm, rfl⟩
        rw [getCell_setCell_ne e (fun hh => hi0 hh.1.symm)]
        rw [hrow i (by omega) hi c hc]
        exact fun hh => hve hh.symm
    · intro j hj
      by_cases hp : c = j
      · rw [← hp, hself]
        exact fun hh => hve hh.symm
      · rw [getCell_setCell_ne e (fun hh => hp hh.2)]
        by_cases hje : getCell b 0 j = e
        · rw [hje]
          exact fun hh => hve hh.symm
        · exact fun hh => (hdist j c hj hc (fun hcc => hp hcc.symm) hje) (hh.trans rfl)
    · intro i j hi hj
      have hy : (0 : Nat) / 3 * 3 + i = i := by omega
      rw [hy]
      by_cases hi0 : i = 0
      · subst hi0
        by_cases hp : c = c / 3 * 3 + j
        · rw [← hp, hself]
          exact fun hh => hve hh.symm
        · rw [getCell_setCell_ne e (fun hh => hp hh.2)]
          by_cases hje : getCell b 0 (c / 3 * 3 + j) = e
          · rw [hje]
            exact fun hh => hve hh.symm
          · exact fun hh =>
              (hdist (c / 3 * 3 + j) c (by omega) hc (fun hcc => hp hcc.symm) hje)
                (hh.trans rfl)
      · rw [getCell_setCell_ne e (fun hh => hi0 hh.1.symm)]
        rw [hrow i (by omega) (by omega) (c / 3 * 3 + j) (by omega)]
        exact fun hh => hve hh.symm

theorem seed_ValidB {e : Cell} {c1 c2 c3 : Fin 9} {v1 v2 v3 : Cell}
    (h12 : (c1 : Nat) ≠ c2) (h13 : (c1 : Nat) ≠ c3) (h23 : (c2 : Nat) ≠ c3)
    (hv1 : v1 ∈ digits) (hv2 : v2 ∈ digits) (hv3 : v3 ∈ digits)
    (hw12 : v1 ≠ v2) (hw13 : v1 ≠ v3) (hw23 : v2 ≠ v3)
    (he : NotDigit e) : ValidB (seedBoard e c1 c2 c3 v1 v2 v3) e := by
  have he1 : v1 ≠ e := fun h => he (h ▸ hv1)
  have he2 : v2 ≠ e := fun h => he (h ▸ hv2)
  have he3 : v3 ≠ e := fun h => he (h ▸ hv3)
  apply ValidB_row0 (Board9_seedBoard e c1 c2 c3 v1 v2 v3)
  · intro r h1r hr c hc
    rw [getCell_seedBoard h12 h13 h23 hr hc]
    rw [if_neg (by omega), if_neg (by omega), if_neg (by omega)]
  · intro c c' hc hc' hne hcne
    rw [getCell_seedBoard h12 h13 h23 (by omega) hc] at hcne ⊢
    rw [getCell_seedBoard h12 h13 h23 (by omega) hc']
    split_ifs at hcne ⊢ <;>
      first
        | exact absurd rfl hcne
        | exact hw12
        | exact hw13
        | exact hw23
        | exact fun hh => hw12 hh.symm
        | exact fun hh => hw13 hh.symm
        | exact fun hh => hw23 hh.symm
        | exact he1
        | exact he2
        | exact he3
        | omega

/-! ## Complete legal grids -/

/-- The box clause of `Distinct9`, read back in cell coordinates. -/
theorem distinct9_box_cells {t : Board}
    (hbox : ∀ bi, bi < 9 → ∀ p, p < 9 → ∀ q, q < 9 → p ≠ q →
      getCell t (bi / 3 * 3 + p / 3) (bi % 3 * 3 + p % 3)
        ≠ getCell t (bi / 3 * 3 + q / 3) (bi % 3 * 3 + q % 3))
    {r c r' c' : Nat} (hr : r < 9) (hc : c < 9) (_hr' : r' < 9) (_hc' : c' < 9)
    (hd1 : r / 3 = r' / 3) (hd2 : c / 3 = c' / 3) (hne : ¬(r = r' ∧ c = c')) :
    getCell t r c ≠ getCell t r' c' := by
  have h := hbox (r / 3 * 3 + c / 3) (by omega) (r % 3 * 3 + c % 3) (by omega)
    (r' % 3 * 3 + c' % 3) (by omega) (by omega)
  have e1 : (r / 3 * 3 + c / 3) / 3 * 3 + (r % 3 * 3 + c % 3) / 3 = r := by omega
  have e2 : (r / 3 * 3 + c / 3) % 3 * 3 + (r % 3 * 3 + c % 3) % 3 = c := by omega
  have e3 : (r / 3 * 3 + c / 3) / 3 * 3 + (r' % 3 * 3 + c' % 3) / 3 = r' := by
    omega
  have e4 : (r / 3 * 3 + c / 3) % 3 * 3 + (r' % 3 * 3 + c' % 3) % 3 = c' := by
    omega
  rw [e1, e2, e3, e4] at h
  exact h

theorem ValidB_of_goodGrid {t : Board} {e : Cell} (hg : GoodGrid t)
    (he : NotDigit e) : ValidB t e := by
  obtain ⟨hb, hfull, hrows, hcols, hboxes⟩ := hg
  intro r hr c hc
  unfold CellOK
  right
  have hvd := hfull r hr c hc
  have hvne : getCell t r c ≠ e := fun h => he (h ▸ hvd)
  have hbB : Board9 (setCell t r c e) := Board9_setCell hb r c e
  have hself : getCell (setCell t r c e) r c = e :=
    getCell_setCell_self e (by rw [hb.1]; exact hr) (by rw [hb.2 r hr]; exact hc)
  rw [is_valid_entry_iff hbB hr hc]
  refine ⟨?_, ?_, ?_⟩
  · intro i hi
    by_cases hp : r = i ∧ c = c
    · rw [← hp.1, hself]
      exact fun hh => hvne hh.symm
    · have hir : i ≠ r := fun hh => hp ⟨hh.symm, rfl⟩
      rw [getCell_setCell_ne e hp]
      exact hcols c hc i hi r hr hir
  · intro j hj
    by_cases hp : c = j
    · rw [← hp, hself]
      exact fun hh => hvne hh.symm
    · rw [getCell_setCell_ne e (fun hh => hp hh.2)]
      exact hrows r hr j hj c hc (fun hh => hp hh.symm)
  · intro i j hi hj
    by_cases hp : r = r / 3 * 3 + i ∧ c = c / 3 * 3 + j
    · rw [← hp.1, ← hp.2, hself]
      exact fun hh => hvne hh.symm
    · rw [getCell_setCell_ne e hp]
      exact distinct9_box_cells hboxes (by omega) (by omega) hr hc
        (by omega) (by omega) (fun hh => hp ⟨hh.1.symm, hh.2.symm⟩)

theorem full_of_goodGrid {t : Board} {e : Cell} (hg : GoodGrid t)
    (he : NotDigit e) : get_empty t e = none := by
  rw [get_empty_eq_none_iff]
  intro r hr c hc hcell
  exact he (hcell ▸ hg.2.1 r hr c hc)

theorem Board9_mapGrid (f : Cell → Cell) {t : Board} (hb : Board9 t) :
    Board9 (mapGrid f t) := by
  refine ⟨by unfold mapGrid; rw [List.length_map]; exact hb.1, ?_⟩
  intro r hr
  unfold mapGrid
  have hrl : r < t.length := by rw [hb.1]; exact hr
  rw [List.getD_eq_getElem _ _ (by rw [List.length_map]; exact hrl),
    List.getElem_map, List.length_map, ← List.getD_eq_getElem t [] hrl]
  exact hb.2 r hr

theorem getCell_mapGrid {f : Cell → Cell} {t : Board} (hb : Board9 t)
    {r c : Nat} (hr : r < 9) (hc : c < 9) :
    getCell (mapGrid f t) r c = f (getCell t r c) := by
  unfold getCell mapGrid
  have hrl : r < t.length := by rw [hb.1]; exact hr
  have h1 : (t.map (List.map f)).getD r [] = List.map f (t.getD r []) := by
    rw [List.getD_eq_getElem _ _ (by rw [List.length_map]; exact hrl),
      List.getElem_map, List.getD_eq_getElem t [] hrl]
  rw [h1]
  have hcl : c < (t.getD r []).length := by rw [hb.2 r hr]; exact hc
  rw [List.getD_eq_getElem _ _ (by rw [List.length_map]; exact hcl),
    List.getElem_map, List.getD_eq_getElem _ 0 hcl]

theorem GoodGrid_mapGrid {f : Cell → Cell} {t : Board} (hg : GoodGrid t)
    (hinj : Function.Injective f) (hdig : ∀ x ∈ digits, f x ∈ digits) :
    GoodGrid (mapGrid f t) := by
  obtain ⟨hb, hfull, hrows, hcols, hboxes⟩ := hg
  refine ⟨Board9_mapGrid f hb, ?_, ?_, ?_, ?_⟩
  · intro r hr c hc
    rw [getCell_mapGrid hb hr hc]
    exact hdig _ (hfull r hr c hc)
  · intro r hr c hc c' hc' hne
    rw [getCell_mapGrid hb hr hc, getCell_mapGrid hb hr hc']
    exact fun hh => hrows r hr c hc c' hc' hne (hinj hh)
  · intro c hc r hr r' hr' hne
    rw [getCell_mapGrid hb hr hc, getCell_mapGrid hb hr' hc]
    exact fun hh => hcols c hc r hr r' hr' hne (hinj hh)
  · intro bi hbi p hp q hq hne
    rw [getCell_mapGrid hb (by omega) (by omega),
      getCell_mapGrid hb (by omega) (by omega)]
    exact fun hh => hboxes bi hbi p hp q hq hne (hinj hh)

theorem goodGrid_stdGrid : GoodGrid stdGrid := by
  unfold GoodGrid FullDigits Distinct9
  exact ⟨by decide, by decide, by decide, by decide, by decide⟩

theorem stdGrid_row0 : ∀ c, c < 9 → getCell stdGrid 0 c = (c : Int) + 1 := by
  decide

theorem swap_mem_digits {a b x : Cell} (ha : a ∈ digits) (hb : b ∈ digits)
    (hx : x ∈ digits) : Equiv.swap a b x ∈ digits := by
  rcases eq_or_ne x a with rfl | hxa
  · rw [Equiv.swap_apply_left]
    exact hb
  · rcases eq_or_ne x b with rfl | hxb
    · rw [Equiv.swap_apply_right]
      exact ha
    · rw [Equiv.swap_apply_of_ne_of_ne hxa hxb]
      exact hx

theorem exists_perm_three (a1 a2 a3 v1 v2 v3 : Cell)
    (ha12 : a1 ≠ a2) (ha13 : a1 ≠ a3) (ha23 : a2 ≠ a3)
    (hv12 : v1 ≠ v2) (hv13 : v1 ≠ v3) (hv23 : v2 ≠ v3)
    (ha1 : a1 ∈ digits) (ha2 : a2 ∈ digits) (ha3 : a3 ∈ digits)
    (hb1 : v1 ∈ digits) (hb2 : v2 ∈ digits) (hb3 : v3 ∈ digits) :
    ∃ f : Cell → Cell, Function.Injective f ∧ (∀ x ∈ digits, f x ∈ digits) ∧
      f a1 = v1 ∧ f a2 = v2 ∧ f a3 = v3 := by
  set s1 := Equiv.swap a1 v1 with hs1
  set s2 := Equiv.swap (s1 a2) v2 with hs2
  set s3 := Equiv.swap (s2 (s1 a3)) v3 with hs3
  have f1 : s1 a1 = v1 := Equiv.swap_apply_left a1 v1
  have h2ne : s1 a2 ≠ v1 := by
    intro h
    exact ha12 (s1.injective (f1.trans h.symm))
  have f2 : s2 (s1 a2) = v2 := Equiv.swap_apply_left _ _
  have g21 : s2 v1 = v1 :=
    Equiv.swap_apply_of_ne_of_ne (fun h => h2ne h.symm) hv12
  have h3ne1 : s2 (s1 a3) ≠ v1 := by
    intro h
    have h2 : s1 a3 = v1 := s2.injective (h.trans g21.symm)
    exact ha13 (s1.injective (f1.trans h2.symm))
  have h3ne2 : s2 (s1 a3) ≠ v2 := by
    intro h
    have h2 : s1 a3 = s1 a2 := s2.injective (h.trans f2.symm)
    exact ha23 (s1.injective h2).symm
  have f3 : s3 (s2 (s1 a3)) = v3 := Equiv.swap_apply_left _ _
  have g31 : s3 v1 = v1 :=
    Equiv.swap_apply_of_ne_of_ne (fun h => h3ne1 h.symm) hv13
  have g32 : s3 v2 = v2 :=
    Equiv.swap_apply_of_ne_of_ne (fun h => h3ne2 h.symm) hv23
  refine ⟨fun x => s3 (s2 (s1 x)), ?_, ?_, ?_, ?_, ?_⟩
  · intro x y h
    exact s1.injective (s2.injective (s3.injective h))
  · intro x hx
    have ms1a2 : s1 a2 ∈ digits := swap_mem_digits ha1 hb1 ha2
    have ms2s1a3 : s2 (s1 a3) ∈ digits :=
      swap_mem_digits ms1a2 hb2 (swap_mem_digits ha1 hb1 ha3)
    exact swap_mem_digits ms2s1a3 hb3
      (swap_mem_digits ms1a2 hb2 (swap_mem_digits ha1 hb1 hx))
  · show s3 (s2 (s1 a1)) = v1
    rw [f1, g21, g31]
  · show s3 (s2 (s1 a2)) = v2
    rw [f2, g32]
  · exact f3

/-! ## Solver completeness: a board extendable to a complete legal grid is
solved by the backtracking search -/

theorem mem_digits (x : Int) : x ∈ digits ↔ 1 ≤ x ∧ x ≤ 9 := by
  simp [digits]
  omega

theorem fill_go_succeeds {e : Cell} {t : Board} (hgood : GoodGrid t)
    (hnd : NotDigit e) :
    ∀ (fuel : Nat) (b : Board), Board9 b → agreesOn b t e →
      emptyCount b e < fuel → (fill_go fuel b e).1 = true := by
  intro fuel
  induction fuel with
  | zero =>
    intro b hb hag hfuel
    omega
  | succ fuel ih =>
    intro b hb hag hfuel
    cases hge : get_empty b e with
    | none => simp [fill_go, hge]
    | some rc =>
      obtain ⟨r, c⟩ := rc
      obtain ⟨hr, hc, hrc⟩ := get_empty_eq_some hge
      simp only [fill_go, hge]
      have hvd : getCell t r c ∈ digits := hgood.2.1 r hr c hc
      have hvne : getCell t r c ≠ e := fun h => hnd (h ▸ hvd)
      have hiv : is_valid_entry b r c (getCell t r c) = true := by
        rw [is_valid_entry_iff hb hr hc]
        refine ⟨?_, ?_, ?_⟩
        · intro i hi hcell
          by_cases hbe : getCell b i c = e
          · rw [hbe] at hcell
            exact hvne hcell.symm
          · have hagi := hag i hi c hc hbe
            have hir : i ≠ r := fun hh => hbe (hh ▸ hrc)
            exact hgood.2.2.2.1 c hc i hi r hr hir (hagi.symm.trans hcell)
        · intro j hj hcell
          by_cases hbe : getCell b r j = e
          · rw [hbe] at hcell
            exact hvne hcell.symm
          · have hagj := hag r hr j hj hbe
            have hjc : j ≠ c := fun hh => hbe (hh ▸ hrc)
            exact hgood.2.2.1 r hr j hj c hc hjc (hagj.symm.trans hcell)
        · intro i j hi hj hcell
          by_cases hbe : getCell b (r / 3 * 3 + i) (c / 3 * 3 + j) = e
          · rw [hbe] at hcell
            exact hvne hcell.symm
          · have hagij := hag (r / 3 * 3 + i) (by omega) (c / 3 * 3 + j)
              (by omega) hbe
            have hne : ¬(r / 3 * 3 + i = r ∧ c / 3 * 3 + j = c) := by
              intro hh
              apply hbe
              rw [hh.1, hh.2]
              exact hrc
            exact distinct9_box_cells hgood.2.2.2.2 (by omega) (by omega) hr hc
              (by omega) (by omega) hne (hagij.symm.trans hcell)
      have hnext : (fill_go fuel (setCell b r c (getCell t r c)) e).1 = true := by
        apply ih
        · exact Board9_setCell hb r c _
        · intro r' hr' c' hc' hne
          by_cases hp : r = r' ∧ c = c'
          · obtain ⟨rfl, rfl⟩ := hp
            rw [getCell_setCell_self _ (by rw [hb.1]; exact hr)
              (by rw [hb.2 r hr]; exact hc)]
          · rw [getCell_setCell_ne _ hp] at hne ⊢
            exact hag r' hr' c' hc' hne
        · have hdec := @emptyCount_setCell b e r c hb hr hc (getCell t r c)
          rw [if_pos (by simpa using hrc), if_neg (by simpa using hvne)] at hdec
          omega
      exact fill_fold_succeeds (fun b2 b3 hh => fill_go_false hh) hrc digits
        (getCell t r c) hvd hiv hnext

/-- The seeded board always completes: the backtracking solver returns
true on it (the spec's "Solver is guaranteed to succeed here"). -/
theorem fill_seed_succeeds {e : Cell} {c1 c2 c3 : Fin 9} {v1 v2 v3 : Cell}
    (h12 : (c1 : Nat) ≠ c2) (h13 : (c1 : Nat) ≠ c3) (h23 : (c2 : Nat) ≠ c3)
    (hv1 : v1 ∈ digits) (hv2 : v2 ∈ digits) (hv3 : v3 ∈ digits)
    (hw12 : v1 ≠ v2) (hw13 : v1 ≠ v3) (hw23 : v2 ≠ v3)
    (he : NotDigit e) :
    (fill_board (seedBoard e c1 c2 c3 v1 v2 v3) e).1 = true := by
  have ha12 : (((c1 : Nat) : Int) + 1) ≠ (((c2 : Nat) : Int) + 1) := by omega
  have ha13 : (((c1 : Nat) : Int) + 1) ≠ (((c3 : Nat) : Int) + 1) := by omega
  have ha23 : (((c2 : Nat) : Int) + 1) ≠ (((c3 : Nat) : Int) + 1) := by omega
  have hm1 : (((c1 : Nat) : Int) + 1) ∈ digits :=
    (mem_digits _).2 (by have := Fin.is_lt c1; omega)
  have hm2 : (((c2 : Nat) : Int) + 1) ∈ digits :=
    (mem_digits _).2 (by have := Fin.is_lt c2; omega)
  have hm3 : (((c3 : Nat) : Int) + 1) ∈ digits :=
    (mem_digits _).2 (by have := Fin.is_lt c3; omega)
  obtain ⟨f, hinj, hdig, hf1, hf2, hf3⟩ :=
    exists_perm_three (((c1 : Nat) : Int) + 1) (((c2 : Nat) : Int) + 1)
      (((c3 : Nat) : Int) + 1) v1 v2 v3
      ha12 ha13 ha23 hw12 hw13 hw23 hm1 hm2 hm3 hv1 hv2 hv3
  have hgT : GoodGrid (mapGrid f stdGrid) :=
    GoodGrid_mapGrid goodGrid_stdGrid hinj hdig
  have hag : agreesOn (seedBoard e c1 c2 c3 v1 v2 v3) (mapGrid f stdGrid) e := by
    intro r hr c hc hne
    rw [getCell_seedBoard h12 h13 h23 hr hc] at hne ⊢
    split_ifs at hne ⊢ with hp1 hp2 hp3
    · rw [hp1.1, hp1.2,
        getCell_mapGrid goodGrid_stdGrid.1 (by omega) (Fin.is_lt c1),
        stdGrid_row0 (c1 : Nat) (Fin.is_lt c1)]
      exact hf1.symm
    · rw [hp2.1, hp2.2,
        getCell_mapGrid goodGrid_stdGrid.1 (by omega) (Fin.is_lt c2),
        stdGrid_row0 (c2 : Nat) (Fin.is_lt c2)]
      exact hf2.symm
    · rw [hp3.1, hp3.2,
        getCell_mapGrid goodGrid_stdGrid.1 (by omega) (Fin.is_lt c3),
        stdGrid_row0 (c3 : Nat) (Fin.is_lt c3)]
      exact hf3.symm
    · exact absurd rfl hne
  have hfuel : emptyCount (seedBoard e c1 c2 c3 v1 v2 v3) e < 100 := by
    have := emptyCount_le_81 (Board9_seedBoard e c1 c2 c3 v1 v2 v3) e
    omega
  exact fill_go_succeeds hgT he 100 _ (Board9_seedBoard e c1 c2 c3 v1 v2 v3)
    hag hfuel

/-- Everything the rest of the generator needs about the solved board. -/
theorem fill_board_seed {e : Cell} {c1 c2 c3 : Fin 9} {v1 v2 v3 : Cell}
    (h12 : (c1 : Nat) ≠ c2) (h13 : (c1 : Nat) ≠ c3) (h23 : (c2 : Nat) ≠ c3)
    (hv1 : v1 ∈ digits) (hv2 : v2 ∈ digits) (hv3 : v3 ∈ digits)
    (hw12 : v1 ≠ v2) (hw13 : v1 ≠ v3) (hw23 : v2 ≠ v3)
    (he : NotDigit e) :
    Board9 (fill_board (seedBoard e c1 c2 c3 v1 v2 v3) e).2 ∧
      ValidB (fill_board (seedBoard e c1 c2 c3 v1 v2 v3) e).2 e ∧
      get_empty (fill_board (seedBoard e c1 c2 c3 v1 v2 v3) e).2 e = none := by
  have hsucc := fill_seed_succeeds h12 h13 h23 hv1 hv2 hv3 hw12 hw13 hw23 he
  have heq : fill_go 100 (seedBoard e c1 c2 c3 v1 v2 v3) e
      = (true, (fill_board (seedBoard e c1 c2 c3 v1 v2 v3) e).2) := by
    rw [← hsucc]
    rfl
  obtain ⟨hb, hval⟩ := fill_go_true_props
    (Board9_seedBoard e c1 c2 c3 v1 v2 v3)
    (seed_ValidB h12 h13 h23 hv1 hv2 hv3 hw12 hw13 hw23 he) heq
  exact ⟨hb, hval, fill_go_true_getEmpty heq⟩

/-! ## Python-indexing error behaviour of `is_valid_entry_py` -/

theorem isOk_iff_exists {α : Type} (x : Except PyError α) :
    x.isOk = true ↔ ∃ a, x = .ok a := by
  cases x <;> simp [Except.isOk, Except.toBool]

theorem except_bind_isOk {α β : Type} (x : Except PyError α)
    (f : α → Except PyError β) :
    ((x >>= f).isOk = true) ↔ ∃ a, x = .ok a ∧ (f a).isOk = true := by
  cases x with
  | error err => simp [Except.isOk, Except.toBool, Bind.bind, Except.bind]
  | ok a => simp [Except.isOk, Except.toBool, Bind.bind, Except.bind]

theorem mapM_isOk {α β : Type} (f : α → Except PyError β) :
    ∀ l : List α, ((l.mapM f).isOk = true ↔ ∀ a ∈ l, (f a).isOk = true) := by
  intro l
  induction l with
  | nil =>
    rw [List.mapM_nil]
    simp [pure, Except.pure, Except.isOk, Except.toBool]
  | cons x xs ih =>
    rw [List.mapM_cons]
    rw [show ((do
        let y ← f x
        let ys ← xs.mapM f
        pure (y :: ys) : Except PyError (List β)))
      = (f x >>= fun y => xs.mapM f >>= fun ys => pure (y :: ys)) from rfl]
    rw [except_bind_isOk]
    constructor
    · rintro ⟨a, hx, hrest⟩
      rw [except_bind_isOk] at hrest
      obtain ⟨bs, hxs, _⟩ := hrest
      intro u hu
      rcases List.mem_cons.1 hu with rfl | hus
      · rw [hx]
        rfl
      · exact (ih.1 (by rw [hxs]; rfl)) u hus
    · intro hall
      have hx := hall x (List.mem_cons_self _ _)
      cases hfx : f x with
      | error err =>
        rw [hfx] at hx
        exact absurd hx (by simp [Except.isOk, Except.toBool])
      | ok a =>
        refine ⟨a, rfl, ?_⟩
        rw [except_bind_isOk]
        have hxs := ih.2 (fun u hu => hall u (List.mem_cons_of_mem _ hu))
        cases hmx : xs.mapM f with
        | error err =>
          rw [hmx] at hxs
          exact absurd hxs (by simp [Except.isOk, Except.toBool])
        | ok bs => exact ⟨bs, rfl, rfl⟩

theorem pyIndex_isSome {len : Nat} {i : Int} :
    (pyIndex len i).isSome = true ↔ (-(len : Int) ≤ i ∧ i < len) := by
  unfold pyIndex
  split_ifs <;> simp <;> omega

theorem pyGetRow_isOk_eq {b : Board} {i : Int} :
    (pyGetRow b i).isOk = (pyIndex b.length i).isSome := by
  unfold pyGetRow
  cases pyIndex b.length i <;> rfl

theorem pyGetCell_isOk_eq {l : List Cell} {i : Int} :
    (pyGetCell l i).isOk = (pyIndex l.length i).isSome := by
  unfold pyGetCell
  cases pyIndex l.length i <;> rfl

theorem gvs_py_isOk {b : Board} (hb : Board9 b) {r : Int} (c : Int)
    (hr1 : -9 ≤ r) (hr2 : r < 9) :
    (get_values_in_square_py b r c).isOk = true := by
  unfold get_values_in_square_py
  have hfd : Int.fdiv r 3 = r / 3 := Int.fdiv_eq_ediv _ (by norm_num)
  have hrowOk : ∀ j : Int, -9 ≤ j → j < 9 → (pyGetRow b j).isOk = true := by
    intro j hj1 hj2
    rw [pyGetRow_isOk_eq]
    apply pyIndex_isSome.2
    rw [hb.1]
    constructor <;> omega
  obtain ⟨r0, hr0⟩ := (isOk_iff_exists _).1
    (hrowOk (Int.fdiv r 3 * 3) (by rw [hfd]; omega) (by rw [hfd]; omega))
  obtain ⟨r1, hr1v⟩ := (isOk_iff_exists _).1
    (hrowOk (Int.fdiv r 3 * 3 + 1) (by rw [hfd]; omega) (by rw [hfd]; omega))
  obtain ⟨r2, hr2v⟩ := (isOk_iff_exists _).1
    (hrowOk (Int.fdiv r 3 * 3 + 2) (by rw [hfd]; omega) (by rw [hfd]; omega))
  rw [except_bind_isOk]
  refine ⟨r0, hr0, ?_⟩
  rw [except_bind_isOk]
  refine ⟨r1, hr1v, ?_⟩
  rw [except_bind_isOk]
  exact ⟨r2, hr2v, rfl⟩

theorem is_valid_entry_py_isOk {b : Board} (hb : Board9 b) (r c : Int)
    (v : Cell) :
    (is_valid_entry_py b r c v).isOk = true
      ↔ (-9 ≤ r ∧ r < 9 ∧ -9 ≤ c ∧ c < 9) := by
  unfold is_valid_entry_py
  have hcol : ((b.mapM (fun row => pyGetCell row c)).isOk = true)
      ↔ (-9 ≤ c ∧ c < 9) := by
    rw [mapM_isOk]
    constructor
    · intro h
      have h9 : (0 : Nat) < b.length := by rw [hb.1]; omega
      have hcell := h _ (getD_mem h9)
      rw [pyGetCell_isOk_eq, rows_length hb _ (getD_mem h9)] at hcell
      obtain ⟨h1, h2⟩ := pyIndex_isSome.1 hcell
      constructor <;> omega
    · rintro ⟨h1, h2⟩ row hrow
      rw [pyGetCell_isOk_eq, rows_length hb row hrow]
      apply pyIndex_isSome.2
      constructor <;> omega
  constructor
  · intro h
    rw [except_bind_isOk] at h
    obtain ⟨column, hcolv, h⟩ := h
    rw [except_bind_isOk] at h
    obtain ⟨row, hrowv, _⟩ := h
    have hc := hcol.1 (by rw [hcolv]; rfl)
    have hrow2 : (pyGetRow b r).isOk = true := by
      rw [hrowv]
      rfl
    rw [pyGetRow_isOk_eq, hb.1] at hrow2
    obtain ⟨hg1, hg2⟩ := pyIndex_isSome.1 hrow2
    exact ⟨by omega, by omega, hc.1, hc.2⟩
  · rintro ⟨h1, h2, h3, h4⟩
    rw [except_bind_isOk]
    obtain ⟨column, hcolv⟩ := (isOk_iff_exists _).1 (hcol.2 ⟨h3, h4⟩)
    refine ⟨column, hcolv, ?_⟩
    rw [except_bind_isOk]
    have hrowOk : (pyGetRow b r).isOk = true := by
      rw [pyGetRow_isOk_eq, hb.1]
      apply pyIndex_isSome.2
      constructor <;> omega
    obtain ⟨row, hrowv⟩ := (isOk_iff_exists _).1 hrowOk
    refine ⟨row, hrowv, ?_⟩
    rw [except_bind_isOk]
    obtain ⟨sq, hsqv⟩ := (isOk_iff_exists _).1 (gvs_py_isOk hb c h1 h2)
    exact ⟨sq, hsqv, rfl⟩

/-! # Claim theorems -/

/-- C1, counterexample: on the 9x9 board `overCountBoard`, `count_solutions`
with `limit = 2` returns 3 — more than 2 — refuting the claim that the
result never exceeds 2.  (The final candidate branch adds a sub-count of 2
on top of an already-accumulated 1 before the limit test fires.) -/
theorem C1_counterexample :
    Board9 overCountBoard ∧ (count_solutions overCountBoard 2 0).1 = 3 := by
  constructor
  · decide
  · rfl

/-- C1, amended: for every 9x9 grid, sentinel and `limit = 2`,
`count_solutions` returns an integer that is at least 0 and at most one more
than the number of empty cells (so at most 82); it is not capped at 2. -/
theorem C1_count_bound (b : Board) (e : Cell) (hb : Board9 b) :
    0 ≤ (count_solutions b 2 e).1 ∧
      (count_solutions b 2 e).1 ≤ (emptyCount b e : Int) + 1 :=
  ⟨count_go_nonneg 100 b 2 e, count_go_bound 100 b e hb⟩

theorem C1_count_bound_witness :
    0 ≤ (count_solutions stdGrid 2 0).1 ∧
      (count_solutions stdGrid 2 0).1 ≤ (emptyCount stdGrid 0 : Int) + 1 :=
  C1_count_bound stdGrid 0 (by decide)

/-- C2: with `unique=True`, a total in 1..81, a non-digit sentinel, and the
three seeds placed in distinct columns with distinct digit values,
`generate` raises no error and returns a puzzle whose `count_solutions`
(limit 2) count is exactly 1; moreover the carving loop preserves
single-solvability at every step, for any random stream and any position in
the loop. -/
theorem C2_unique_puzzle (total : Nat) (e : Cell) (c1 c2 c3 : Fin 9)
    (v1 v2 v3 : Cell) (rng : Nat → Fin 9 × Fin 9) (fuel : Nat)
    (h0 : 0 < total) (h81 : total ≤ 81)
    (h12 : (c1 : Nat) ≠ c2) (h13 : (c1 : Nat) ≠ c3) (h23 : (c2 : Nat) ≠ c3)
    (hv1 : v1 ∈ digits) (hv2 : v2 ∈ digits) (hv3 : v3 ∈ digits)
    (hw12 : v1 ≠ v2) (hw13 : v1 ≠ v3) (hw23 : v2 ≠ v3)
    (he : NotDigit e) :
    (∃ p s, generate total true e c1 c2 c3 v1 v2 v3 rng fuel
        = .ok (some (p, s)) ∧ (count_solutions p 2 e).1 = 1) ∧
    (∀ gas b n a, (count_solutions b 2 e).1 = 1 →
      (count_solutions (carve_go rng total e gas b n a) 2 e).1 = 1) := by
  obtain ⟨hbS, hvalS, hgeS⟩ :=
    fill_board_seed h12 h13 h23 hv1 hv2 hv3 hw12 hw13 hw23 he
  have hcount :
      (count_solutions (fill_board (seedBoard e c1 c2 c3 v1 v2 v3) e).2 2 e).1
        = 1 := by
    rw [count_solutions_full hgeS]
  constructor
  · refine ⟨_create_unique_board
        (fill_board (seedBoard e c1 c2 c3 v1 v2 v3) e).2 total e rng,
      (fill_board (seedBoard e c1 c2 c3 v1 v2 v3) e).2, ?_, ?_⟩
    · unfold generate
      rw [if_neg (not_not_intro ⟨h0, h81⟩)]
      rfl
    · exact carve_unique 243 _ 0 0 hcount
  · intro gas b n a h
    exact carve_unique gas b n a h

theorem C2_unique_puzzle_witness :
    (∃ p s, generate 1 true 0 0 1 2 1 2 3 constRng 0 = .ok (some (p, s)) ∧
        (count_solutions p 2 0).1 = 1) ∧
    (∀ gas b n a, (count_solutions b 2 (0 : Cell)).1 = 1 →
      (count_solutions (carve_go constRng 1 0 gas b n a) 2 0).1 = 1) :=
  C2_unique_puzzle 1 0 0 1 2 1 2 3 constRng 0 (by decide) (by decide)
    (by decide) (by decide) (by decide) (by decide) (by decide) (by decide)
    (by decide) (by decide) (by decide) (by unfold NotDigit; decide)

/-- C3: with valid arguments (total in 1..81, non-digit sentinel, distinct
seed columns and values), `generate` under either uniqueness policy raises
no error, and whenever it returns a (puzzle, solution) pair: both are 9x9,
the solution has no sentinel cell, the solution passes `is_valid_board`
and is returned by it unchanged, and every non-sentinel cell of the puzzle
agrees with the solution. -/
theorem C3_generate_contract (total : Nat) (uniq : Bool) (e : Cell)
    (c1 c2 c3 : Fin 9) (v1 v2 v3 : Cell) (rng : Nat → Fin 9 × Fin 9)
    (fuel : Nat) (h0 : 0 < total) (h81 : total ≤ 81)
    (h12 : (c1 : Nat) ≠ c2) (h13 : (c1 : Nat) ≠ c3) (h23 : (c2 : Nat) ≠ c3)
    (hv1 : v1 ∈ digits) (hv2 : v2 ∈ digits) (hv3 : v3 ∈ digits)
    (hw12 : v1 ≠ v2) (hw13 : v1 ≠ v3) (hw23 : v2 ≠ v3)
    (he : NotDigit e) :
    ∃ res, generate total uniq e c1 c2 c3 v1 v2 v3 rng fuel = .ok res ∧
      ∀ p s, res = some (p, s) →
        Board9 p ∧ Board9 s ∧ emptyCount s e = 0 ∧
        is_valid_board s e = .ok (true, s) ∧ agreesOn p s e := by
  obtain ⟨hbS, hvalS, hgeS⟩ :=
    fill_board_seed h12 h13 h23 hv1 hv2 hv3 hw12 hw13 hw23 he
  have hec : emptyCount (fill_board (seedBoard e c1 c2 c3 v1 v2 v3) e).2 e = 0 :=
    (emptyCount_eq_zero_iff hbS).2 hgeS
  have hivb : is_valid_board (fill_board (seedBoard e c1 c2 c3 v1 v2 v3) e).2 e
      = .ok (true, (fill_board (seedBoard e c1 c2 c3 v1 v2 v3) e).2) :=
    is_valid_board_ok hbS hvalS
  have hagS : agreesOn (fill_board (seedBoard e c1 c2 c3 v1 v2 v3) e).2
      (fill_board (seedBoard e c1 c2 c3 v1 v2 v3) e).2 e :=
    fun r _ c _ _ => rfl
  cases uniq with
  | true =>
    refine ⟨some (_create_unique_board
        (fill_board (seedBoard e c1 c2 c3 v1 v2 v3) e).2 total e rng,
        (fill_board (seedBoard e c1 c2 c3 v1 v2 v3) e).2), ?_, ?_⟩
    · unfold generate
      rw [if_neg (not_not_intro ⟨h0, h81⟩)]
      rfl
    · intro p s hps
      have hp := pair_eq_fst (Option.some.inj hps)
      have hs := pair_eq_snd (Option.some.inj hps)
      rw [← hp, ← hs]
      exact ⟨carve_board9 243 _ 0 0 hbS, hbS, hec, hivb,
        carve_agrees 243 _ 0 0 hbS hagS⟩
  | false =>
    cases hrem : remove_go rng e fuel
        (fill_board (seedBoard e c1 c2 c3 v1 v2 v3) e).2 total 0 with
    | none =>
      refine ⟨none, ?_, ?_⟩
      · unfold generate
        rw [if_neg (not_not_intro ⟨h0, h81⟩)]
        simp only [hrem]
        rfl
      · intro p s hps
        exact absurd hps (by simp)
    | some puzzle =>
      obtain ⟨hbp, _⟩ := remove_go_props fuel _ total 0 puzzle hbS hrem
      refine ⟨some (puzzle,
        (fill_board (seedBoard e c1 c2 c3 v1 v2 v3) e).2), ?_, ?_⟩
      · unfold generate
        rw [if_neg (not_not_intro ⟨h0, h81⟩)]
        simp only [hrem]
        rfl
      · intro p s hps
        have hp := pair_eq_fst (Option.some.inj hps)
        have hs := pair_eq_snd (Option.some.inj hps)
        rw [← hp, ← hs]
        exact ⟨hbp, hbS, hec, hivb,
          remove_go_agrees fuel _ total 0 puzzle hbS hagS hrem⟩

theorem C3_generate_contract_witness :
    ∃ res, generate 1 false 0 0 1 2 1 2 3 enumRng 100 = .ok res ∧
      ∀ p s, res = some (p, s) →
        Board9 p ∧ Board9 s ∧ emptyCount s 0 = 0 ∧
        is_valid_board s 0 = .ok (true, s) ∧ agreesOn p s 0 :=
  C3_generate_contract 1 false 0 0 1 2 1 2 3 enumRng 100 (by decide)
    (by decide) (by decide) (by decide) (by decide) (by decide) (by decide)
    (by decide) (by decide) (by decide) (by decide)
    (by unfold NotDigit; decide)

/-- C4, counterexample: `is_valid_board` on a board with a duplicated 1 in
row 0 returns `False` with cell (0,0) left holding the sentinel — the grid
is mutated on the `False` path, refuting "unchanged on return whether true
or false". -/
theorem C4_counterexample :
    is_valid_board dupBoard 0 = .ok (false, setCell dupBoard 0 0 0) ∧
      setCell dupBoard 0 0 0 ≠ dupBoard := by
  constructor
  · rfl
  · decide

/-- C4, amended: when `is_valid_board` returns `True` every temporarily
emptied cell has been restored, so the grid returned equals the input; when
it returns `False` the grid differs from the input only in the first
offending cell, which is left holding the sentinel. -/
theorem C4_validator_restore (b : Board) (e : Cell) (res : Board) :
    (is_valid_board b e = .ok (true, res) → res = b) ∧
    (is_valid_board b e = .ok (false, res) →
      ∃ r c, r < 9 ∧ c < 9 ∧ getCell b r c ≠ e ∧ res = setCell b r c e) := by
  constructor
  · intro h
    exact (is_valid_board_ok_true h).1
  · intro h
    unfold is_valid_board at h
    by_cases hshape : b.length ≠ 9 ∨ b.any (fun row => row.length ≠ 9) = true
    · rw [if_pos hshape] at h
      exact absurd h (by simp)
    · rw [if_neg hshape] at h
      have hloop : validLoop b e allCells = (false, res) := by
        have h2 := Except.ok.inj h
        rw [← h2]
      obtain ⟨r, c, hmem, hne, hres, _⟩ := validLoop_false allCells hloop
      obtain ⟨hr, hc⟩ := mem_allCells_iff.1 hmem
      exact ⟨r, c, hr, hc, hne, hres⟩

theorem C4_validator_restore_witness :
    is_valid_board stdGrid 0 = .ok (true, stdGrid) ∧ stdGrid = stdGrid := by
  constructor
  · rfl
  · exact (C4_validator_restore stdGrid 0 stdGrid).1 rfl

/-- C5, counterexample: the fully filled board of all 1s has two identical
non-sentinel values in row 0, yet `fill_board` returns `True` on it (there
is no empty cell, so the search succeeds immediately) — refuting "must
return false". -/
theorem C5_counterexample :
    (getCell allOnes 0 0 = 1 ∧ getCell allOnes 0 1 = 1 ∧ (1 : Cell) ≠ 0 ∧
      Board9 allOnes) ∧ fill_board allOnes 0 = (true, allOnes) := by
  constructor
  · exact ⟨by decide, by decide, by decide, by decide⟩
  · rfl

/-- C5, amended: whenever `fill_board` returns `False` (in particular on an
unsolvable grid such as one whose duplicated row value blocks an empty
cell), the returned grid equals the input: every cell the search tentatively
filled has been reverted to the sentinel.  A grid whose duplicated row
values leave no empty cell returns `True` instead (see `C5_counterexample`). -/
theorem C5_fill_restore (b : Board) (e : Cell) (b2 : Board)
    (h : fill_board b e = (false, b2)) : b2 = b := fill_go_false h

theorem C5_fill_restore_witness :
    (fill_board noFitBoard 0).2 = noFitBoard :=
  C5_fill_restore noFitBoard 0 (fill_board noFitBoard 0).2 rfl

/-- C6: for every 9x9 grid, limit and sentinel, `count_solutions` returns
the board exactly as it received it — every tentative placement is undone
before the function returns. -/
theorem C6_count_restores (b : Board) (limit : Int) (e : Cell)
    (_hb : Board9 b) : (count_solutions b limit e).2 = b :=
  count_solutions_snd b limit e

theorem C6_count_restores_witness :
    (count_solutions overCountBoard 2 0).2 = overCountBoard :=
  C6_count_restores overCountBoard 2 0 (by decide)

/-- C7, counterexample: `is_valid_entry` with `row_index = -1` (outside
0..8) raises no error: Python list indexing wraps negative indices in
-9..-1, and the call returns an ordinary boolean. -/
theorem C7_counterexample :
    (-1 : Int) < 0 ∧ is_valid_entry_py (emptyBoard 0) (-1) 0 5 = .ok true := by
  constructor
  · decide
  · rfl

/-- C7, amended: on a 9x9 board, `is_valid_entry` raises an out-of-range
(`IndexError`) exception exactly when `row_index` or `col_index` lies
outside -9..8 (negative indices in -9..-1 wrap around, Python-style); the
value argument can never cause an error — whenever the indices are in that
range the function returns a boolean for any value. -/
theorem C7_index_errors (b : Board) (r c : Int) (v : Cell) (hb : Board9 b) :
    (is_valid_entry_py b r c v).isOk = true
      ↔ (-9 ≤ r ∧ r < 9 ∧ -9 ≤ c ∧ c < 9) :=
  is_valid_entry_py_isOk hb r c v

theorem C7_index_errors_witness :
    ((is_valid_entry_py stdGrid 9 0 5).isOk = true
      ↔ (-9 ≤ (9 : Int) ∧ (9 : Int) < 9 ∧ -9 ≤ (0 : Int) ∧ (0 : Int) < 9)) :=
  C7_index_errors stdGrid 9 0 5 (by decide)

/-- C8: with `unique=False` and valid arguments, `generate` raises no
error, and whenever the removal loop terminates and a (puzzle, solution)
pair is returned, the puzzle holds exactly `total_empties` sentinel cells
and the solution holds none. -/
theorem C8_empties_count (total : Nat) (e : Cell) (c1 c2 c3 : Fin 9)
    (v1 v2 v3 : Cell) (rng : Nat → Fin 9 × Fin 9) (fuel : Nat)
    (h0 : 0 < total) (h81 : total ≤ 81)
    (h12 : (c1 : Nat) ≠ c2) (h13 : (c1 : Nat) ≠ c3) (h23 : (c2 : Nat) ≠ c3)
    (hv1 : v1 ∈ digits) (hv2 : v2 ∈ digits) (hv3 : v3 ∈ digits)
    (hw12 : v1 ≠ v2) (hw13 : v1 ≠ v3) (hw23 : v2 ≠ v3)
    (he : NotDigit e) :
    ∃ res, generate total false e c1 c2 c3 v1 v2 v3 rng fuel = .ok res ∧
      ∀ p s, res = some (p, s) →
        emptyCount p e = total ∧ emptyCount s e = 0 := by
  obtain ⟨hbS, hvalS, hgeS⟩ :=
    fill_board_seed h12 h13 h23 hv1 hv2 hv3 hw12 hw13 hw23 he
  have hec : emptyCount (fill_board (seedBoard e c1 c2 c3 v1 v2 v3) e).2 e = 0 :=
    (emptyCount_eq_zero_iff hbS).2 hgeS
  cases hrem : remove_go rng e fuel
      (fill_board (seedBoard e c1 c2 c3 v1 v2 v3) e).2 total 0 with
  | none =>
    refine ⟨none, ?_, ?_⟩
    · unfold generate
      rw [if_neg (not_not_intro ⟨h0, h81⟩)]
      simp only [hrem]
      rfl
    · intro p s hps
      exact absurd hps (by simp)
  | some puzzle =>
    obtain ⟨_, hecp⟩ := remove_go_props fuel _ total 0 puzzle hbS hrem
    refine ⟨some (puzzle,
      (fill_board (seedBoard e c1 c2 c3 v1 v2 v3) e).2), ?_, ?_⟩
    · unfold generate
      rw [if_neg (not_not_intro ⟨h0, h81⟩)]
      simp only [hrem]
      rfl
    · intro p s hps
      have hp := pair_eq_fst (Option.some.inj hps)
      have hs := pair_eq_snd (Option.some.inj hps)
      rw [← hp, ← hs]
      refine ⟨?_, hec⟩
      rw [hecp, hec, Nat.zero_add]

theorem C8_empties_count_witness :
    ∃ res, generate 45 false 0 0 1 2 1 2 3 enumRng 100 = .ok res ∧
      ∀ p s, res = some (p, s) →
        emptyCount p 0 = 45 ∧ emptyCount s 0 = 0 :=
  C8_empties_count 45 0 0 1 2 1 2 3 enumRng 100 (by decide) (by decide)
    (by decide) (by decide) (by decide) (by decide) (by decide) (by decide)
    (by decide) (by decide) (by decide) (by unfold NotDigit; decide)

/-- C9: the unique-policy carving loop returns the current board as soon as
the requested number of empties is reached or the attempt budget runs out
(`gas` counts the remaining attempts out of `max_attempts = 81 * 3 = 243`,
as the second conjunct records); exhausting the budget raises no error — in
the repository's mocked scenario (a stream that always draws cell (0,0),
20 empties requested) the call returns normally with only 1 empty cell. -/
theorem C9_attempt_budget :
    (∀ (rng : Nat → Fin 9 × Fin 9) (total : Nat) (e : Cell) (gas : Nat)
      (b : Board) (n a : Nat), (total ≤ n ∨ gas = 0) →
        carve_go rng total e gas b n a = b) ∧
    (∀ (b : Board) (total : Nat) (e : Cell) (rng : Nat → Fin 9 × Fin 9),
      _create_unique_board b total e rng = carve_go rng total e 243 b 0 0) ∧
    emptyCount (_create_unique_board stdGrid 20 0 constRng) 0 = 1 := by
  refine ⟨?_, ?_, ?_⟩
  · intro rng total e gas b n a h
    exact carve_stop h
  · intro b total e rng
    rfl
  · rfl

theorem C9_attempt_budget_witness :
    carve_go constRng 5 0 243 stdGrid 7 0 = stdGrid :=
  C9_attempt_budget.1 constRng 5 0 243 stdGrid 7 0 (Or.inl (by omega))

/-- C10: a grid with no sentinel cell makes `count_solutions` return 1
immediately, with the grid unchanged — its legality is never examined, as
the witness (an all-1s grid that fails `is_valid_board`) shows. -/
theorem C10_full_grid_counts_one (b : Board) (limit : Int) (e : Cell)
    (_hb : Board9 b) (h : get_empty b e = none) :
    count_solutions b limit e = (1, b) :=
  count_solutions_full h

theorem C10_full_grid_counts_one_witness :
    count_solutions allOnes 2 0 = (1, allOnes) ∧
      is_valid_board allOnes 0 = .ok (false, setCell allOnes 0 0 0) := by
  constructor
  · exact C10_full_grid_counts_one allOnes 2 0 (by decide) (by decide)
  · rfl

end Sudoku
